import Mathlib

/-!
Verification development for the ree-path-searcher recovery engine.

The Rust sources are shallowly embedded as executable Lean definitions:
  * byte buffers are `List Nat` (one `Nat` per byte),
  * strings are `List Char` (the scanned candidates are ASCII, where Rust's
    byte indices and lengths coincide with character indices and lengths),
  * the archive membership test `PakCollection::contains_path` is an abstract
    parameter `cont : List Char → Bool`,
  * the compile-time cargo features `nsw` / `msg` are explicit `Bool`
    parameters `nsw msg`,
  * fallible Rust functions returning `eyre::Result` are embedded as `Option`
    (`none` = `Err`).
-/

/-! ## Configuration (src/config.rs)

`PathSearcherConfig` stores languages, prefixes and the extension → version
table.  The `FxHashMap` is embedded as an association list; `suffix_versions`
is the lookup. -/

structure PathSearcherConfig where
  languages : List (List Char)
  prefixes : List (List Char)
  suffixMap : List (List Char × List Nat)
deriving DecidableEq

def suffixVersions (cfg : PathSearcherConfig) (ext : List Char) : Option (List Nat) :=
  (cfg.suffixMap.find? (fun kv => kv.1 == ext)).map (·.2)

/-! ## UTF-16LE scanner primitives (src/searcher.rs) -/

/-- `accept_char` from src/searcher.rs: space, or an ASCII graphic character
that is not one of `" * \ : < > ? |`. -/
def acceptChar (c : Nat) : Bool :=
  if c == 32 then true
  else if c < 33 || 126 < c then false
  else if c == 34 || c == 42 || c == 92 || c == 58 || c == 60 || c == 62
          || c == 63 || c == 124 then false
  else true

/-- The scan of `memchr::memmem::find` for the two-byte pattern `0x2F 0x00`,
walking a window of width 2 over the byte list and reporting the absolute
index of the first hit. -/
def findSlashGo : List Nat → Nat → Option Nat
  | a :: b :: rest, i => if a = 47 ∧ b = 0 then some i else findSlashGo (b :: rest) (i + 1)
  | _, _ => none

/-- `memchr::memmem::find(&memory[pos..], b"/\0")` shifted by `pos`: the first
index `i ≥ pos` such that the two bytes at `i` are `0x2F 0x00`. -/
def findSlash (m : List Nat) (pos : Nat) : Option Nat :=
  findSlashGo (m.drop pos) pos

/-- The left-extension loop of `search_memory`, with explicit fuel (the start
offset itself bounds the number of iterations, since the offset drops by 2
each round): move `begin` down by 2 while the pair below is an accepted low
byte followed by a zero high byte. -/
def extendLeftF (m : List Nat) : Nat → Nat → Nat
  | 0, b => b
  | f + 1, b =>
    if b < 2 then b
    else if acceptChar (m.getD (b - 2) 0) ∧ m.getD (b - 1) 0 = 0 then
      extendLeftF m f (b - 2)
    else b

def extendLeft (m : List Nat) (b : Nat) : Nat := extendLeftF m b b

/-- The right-extension loop of `search_memory`, with explicit fuel (the
buffer length bounds the number of iterations): advance `end` by 2 while
`end < len - 1` and the pair at `end` is accepted-low / zero-high. -/
def extendRightF (m : List Nat) : Nat → Nat → Nat
  | 0, e => e
  | f + 1, e =>
    if e + 1 < m.length then
      if acceptChar (m.getD e 0) ∧ m.getD (e + 1) 0 = 0 then extendRightF m f (e + 2)
      else e
    else e

def extendRight (m : List Nat) (e : Nat) : Nat := extendRightF m m.length e

/-- Fuel irrelevance for `extendLeftF`: any fuel at least the start offset
computes the same fixed point, so `extendLeft` is the Rust loop. -/
theorem extendLeftF_congr (m : List Nat) :
    ∀ f g b, b ≤ f → b ≤ g → extendLeftF m f b = extendLeftF m g b := by
  intro f
  induction f with
  | zero =>
    intro g b hf _
    interval_cases b
    cases g <;> simp [extendLeftF]
  | succ f ih =>
    intro g b hf hg
    match g with
    | 0 =>
      interval_cases b
      simp [extendLeftF]
    | g + 1 =>
      simp only [extendLeftF]
      split
      · rfl
      · split
        · exact ih g (b - 2) (by omega) (by omega)
        · rfl

/-- The loop equation for `extendLeft`: it satisfies exactly the recurrence
of the Rust left-extension loop. -/
theorem extendLeft_eq (m : List Nat) (b : Nat) :
    extendLeft m b =
      if b < 2 then b
      else if acceptChar (m.getD (b - 2) 0) ∧ m.getD (b - 1) 0 = 0 then
        extendLeft m (b - 2)
      else b := by
  have key : extendLeftF m b b = extendLeftF m (b + 1) b :=
    extendLeftF_congr m b (b + 1) b (le_refl _) (by omega)
  unfold extendLeft
  rw [key]
  show (if b < 2 then b
        else if acceptChar (m.getD (b - 2) 0) ∧ m.getD (b - 1) 0 = 0 then
          extendLeftF m b (b - 2)
        else b) = _
  by_cases h1 : b < 2
  · simp [h1]
  · simp only [if_neg h1]
    split
    · exact extendLeftF_congr m b (b - 2) (b - 2) (by omega) (le_refl _)
    · rfl

/-- Fuel irrelevance for `extendRightF`: any fuel at least `len - e` computes
the same fixed point, so `extendRight` (fuel `len`) is the Rust loop. -/
theorem extendRightF_congr (m : List Nat) :
    ∀ f g e, m.length - e ≤ f → m.length - e ≤ g →
      extendRightF m f e = extendRightF m g e := by
  intro f
  induction f with
  | zero =>
    intro g e hf _
    have h0 : ¬ e + 1 < m.length := by omega
    cases g <;> simp [extendRightF, h0]
  | succ f ih =>
    intro g e hf hg
    match g with
    | 0 =>
      have h0 : ¬ e + 1 < m.length := by omega
      simp [extendRightF, h0]
    | g + 1 =>
      simp only [extendRightF]
      split
      · split
        · exact ih g (e + 2) (by omega) (by omega)
        · rfl
      · rfl

/-- The loop equation for `extendRight`: it satisfies exactly the recurrence
of the Rust right-extension loop. -/
theorem extendRight_eq (m : List Nat) (e : Nat) :
    extendRight m e =
      if e + 1 < m.length then
        if acceptChar (m.getD e 0) ∧ m.getD (e + 1) 0 = 0 then extendRight m (e + 2)
        else e
      else e := by
  have key : extendRightF m m.length e = extendRightF m (m.length + 1) e :=
    extendRightF_congr m m.length (m.length + 1) e (by omega) (by omega)
  unfold extendRight
  rw [key]
  rfl

/-! ## UTF-16 decoding (src/utils.rs `string_from_utf16_bytes`) -/

/-- The `u16::from_le_bytes` chunking of `string_from_utf16_bytes` (the byte
list is checked to have even length ≥ 2 before this is applied). -/
def chunkUnits : List Nat → List Nat
  | a :: b :: rest => (a + 256 * b) :: chunkUnits rest
  | _ => []

/-- `String::from_utf16`: BMP units decode directly, a high surrogate must be
followed by a low surrogate (the pair combines into one scalar), anything
else — a trailing high surrogate, a malformed pair, a lone low surrogate —
fails. -/
def decodeUnits : List Nat → Option (List Char)
  | [] => some []
  | [u] =>
    if u < 0xD800 ∨ (0xE000 ≤ u ∧ u < 0x10000) then some [Char.ofNat u]
    else none
  | u :: v :: rest =>
    if u < 0xD800 ∨ (0xE000 ≤ u ∧ u < 0x10000) then
      (decodeUnits (v :: rest)).map (Char.ofNat u :: ·)
    else if u < 0xDC00 then
      if 0xDC00 ≤ v ∧ v < 0xE000 then
        (decodeUnits rest).map
          (Char.ofNat (0x10000 + (u - 0xD800) * 0x400 + (v - 0xDC00)) :: ·)
      else none
    else none

/-- `utils::string_from_utf16_bytes`. -/
def stringFromUtf16Bytes (bytes : List Nat) : Option (List Char) :=
  if bytes.length < 2 ∨ bytes.length % 2 ≠ 0 then none
  else decodeUnits (chunkUnits bytes)

/-- `&memory[b..e]`. -/
def sliceBytes (m : List Nat) (b e : Nat) : List Nat :=
  (m.drop b).take (e - b)

/-! ## Path validator (src/searcher.rs `validate_path`) -/

/-- Index of the last occurrence of `x` in `l`. -/
def rfindIdx : List Char → Char → Option Nat
  | [], _ => none
  | c :: t, x =>
    match rfindIdx t x with
    | some i => some (i + 1)
    | none => if c = x then some 0 else none

/-- Rust `str::rsplit_once(c)`: split around the last occurrence of `c`. -/
def rsplitOnce (s : List Char) (c : Char) : Option (List Char × List Char) :=
  match rfindIdx s c with
  | none => none
  | some i => some (s.take i, s.drop (i + 1))

/-- `validate_path` from src/searcher.rs: length at least 3, a `/` present,
and the first `.` of the segment after the last `/` strictly interior. -/
def validatePath (s : List Char) : Bool :=
  if s.length < 3 then false
  else
    match rsplitOnce s '/' with
    | none => false
    | some (_, tail) =>
      match tail.findIdx? (· = '.') with
      | none => false
      | some dotPos => decide (0 < dotPos) && decide (dotPos < tail.length - 1)

/-! ## Candidate expander and prober (src/searcher/suffix.rs `find_path_i18n`) -/

/-- `"." ++ version` rendered the way `format!("{suffix}")` renders a `u32`. -/
def dotNum (v : Nat) : List Char := '.' :: (Nat.repr v).data

/-- The hardcoded `full_paths` array of `find_path_i18n`: three shapes for
`natives/STM/`, two for `natives/NSW/` behind the `nsw` feature, and three
for `natives/MSG/` behind the `msg` feature. -/
def basePaths (nsw msg : Bool) (path : List Char) (v : Nat) : List (List Char) :=
  ("natives/STM/".toList ++ path ++ dotNum v) ::
  ("natives/STM/".toList ++ path ++ dotNum v ++ ".X64".toList) ::
  ("natives/STM/".toList ++ path ++ dotNum v ++ ".STM".toList) ::
  ((if nsw then
      [("natives/NSW/".toList ++ path ++ dotNum v),
       ("natives/NSW/".toList ++ path ++ dotNum v ++ ".NSW".toList)]
    else []) ++
   (if msg then
      [("natives/MSG/".toList ++ path ++ dotNum v),
       ("natives/MSG/".toList ++ path ++ dotNum v ++ ".X64".toList),
       ("natives/MSG/".toList ++ path ++ dotNum v ++ ".MSG".toList)]
    else []))

/-- `format!("{full_path}.{language}")`. -/
def langVariant (b l : List Char) : List Char := b ++ '.' :: l

/-- The inner double loop of `find_path_i18n` for one version: for every base
candidate push it when the archive contains it, then push every contained
language variant in config order. -/
def collectVersion (nsw msg : Bool) (cont : List Char → Bool)
    (cfg : PathSearcherConfig) (path : List Char) (v : Nat) : List (List Char) :=
  (basePaths nsw msg path v).foldl
    (fun acc b =>
      let acc1 := if cont b then acc ++ [b] else acc
      cfg.languages.foldl
        (fun acc2 l => if cont (langVariant b l) then acc2 ++ [langVariant b l] else acc2)
        acc1)
    []

/-- Rust `str::find` (case sensitive, first occurrence, `Some 0` for an empty
needle). -/
def findSub : List Char → List Char → Option Nat
  | [], p => if p.isEmpty then some 0 else none
  | s@(_ :: t), p =>
    if p.length > s.length then none
    else if s.take p.length == p then some 0
    else (findSub t p).map (· + 1)

/-- The `pos` computation of the streaming overlay: position just after the
first config prefix found inside the full path, `0` when none occurs. -/
def streamingPos : List (List Char) → List Char → Nat
  | [], _ => 0
  | p :: ps, full =>
    match findSub full p with
    | some i => i + p.length
    | none => streamingPos ps full

/-- The streaming overlay of `find_path_i18n`: for every emitted match, insert
`streaming/` after the first config prefix occurring in it and keep the result
when the archive contains it. -/
def streamingVariants (cont : List Char → Bool) (cfg : PathSearcherConfig)
    (result : List (List Char)) : List (List Char) :=
  result.filterMap (fun info =>
    let pos := streamingPos cfg.prefixes info
    if 0 < pos then
      let sp := info.take pos ++ "streaming/".toList ++ info.drop pos
      if cont sp then some sp else none
    else none)

/-- The version loop of `find_path_i18n` (already reversed: newest first);
stops at the first version whose collected result is nonempty and appends the
streaming overlay to it. -/
def tryVersions (nsw msg : Bool) (cont : List Char → Bool)
    (cfg : PathSearcherConfig) (path : List Char) : List Nat → List (List Char)
  | [] => []
  | v :: rest =>
    let r := collectVersion nsw msg cont cfg path v
    if r.isEmpty then tryVersions nsw msg cont cfg path rest
    else r ++ streamingVariants cont cfg r

/-- `PathComponents::extension`: the chunk after the last `.` of the raw
path. -/
def extOf (path : List Char) : Option (List Char) :=
  (rfindIdx path '.').map (fun i => path.drop (i + 1))

/-- `find_path_i18n` from src/searcher/suffix.rs, with the raw path given
directly (the call site in `search_memory` passes the scanned candidate).
`none` embeds the two `Err` outcomes: missing extension and extension absent
from the suffix table. -/
def findPathI18n (nsw msg : Bool) (cont : List Char → Bool)
    (cfg : PathSearcherConfig) (path : List Char) : Option (List (List Char)) :=
  match extOf path with
  | none => none
  | some ext =>
    match suffixVersions cfg ext with
    | none => none
    | some vs => some (tryVersions nsw msg cont cfg path vs.reverse)

/-! ## The `search_memory` loop (src/searcher.rs) with its shared state:
result cache, unknown-path set and collected output.  `iters` counts the
iterations of the seed loop (instrumentation for the termination bound). -/

structure SearchState where
  cache : List (List Char × Option (List (List Char)))
  unknown : List (List Char)
  found : List (List Char × List (List Char))
  iters : Nat
deriving DecidableEq

/-- `DashMap::get` on the association-list embedding of the path cache. -/
def lookupCache (cache : List (List Char × Option (List (List Char))))
    (k : List Char) : Option (Option (List (List Char))) :=
  (cache.find? (fun kv => kv.1 == k)).map (·.2)

/-- `FxHashSet::insert`. -/
def insertSet (x : List Char) (s : List (List Char)) : List (List Char) :=
  if x ∈ s then s else s ++ [x]

/-- The cache-consult / probe / record block of `search_memory` for one
validated candidate (the `Some(pak)` branch). -/
def processCandidate (nsw msg : Bool) (cont : List Char → Bool)
    (cfg : PathSearcherConfig) (path : List Char) (st : SearchState) : SearchState :=
  match lookupCache st.cache path with
  | some (some cached) => { st with found := st.found ++ [(path, cached)] }
  | some none => st
  | none =>
    match findPathI18n nsw msg cont cfg path with
    | none =>
      { st with unknown := insertSet path st.unknown
                cache := st.cache ++ [(path, none)] }
    | some hashes =>
      { st with cache := st.cache ++ [(path, some hashes)]
                found := st.found ++ [(path, hashes)] }

/-- One iteration of the seed loop of `search_memory`, minus the cursor
update: extend left, extend right, abandon on zero progress, decode,
validate, then resolve through the cache. -/
def seedIteration (nsw msg : Bool) (cont : List Char → Bool)
    (cfg : PathSearcherConfig) (m : List Nat) (sp : Nat) (st : SearchState) :
    SearchState :=
  if extendLeft m sp = sp then st
  else if extendRight m (sp + 2) = sp then st
  else
    match stringFromUtf16Bytes (sliceBytes m (extendLeft m sp) (extendRight m (sp + 2))) with
    | none => st
    | some path => if validatePath path then processCandidate nsw msg cont cfg path st else st

/-- The cursor after one iteration of the seed loop: `min (sp+2) len` when the
seed is abandoned, `min (end+2) len` otherwise. -/
def nextPos (m : List Nat) (sp : Nat) : Nat :=
  if extendLeft m sp = sp then min (sp + 2) m.length
  else if extendRight m (sp + 2) = sp then min (sp + 2) m.length
  else min (extendRight m (sp + 2) + 2) m.length

theorem findSlashGo_bounds :
    ∀ (l : List Nat) (i sp : Nat), findSlashGo l i = some sp →
      i ≤ sp ∧ sp + 2 ≤ i + l.length
  | [], i, sp => by intro h; simp [findSlashGo] at h
  | [a], i, sp => by intro h; simp [findSlashGo] at h
  | a :: b :: rest, i, sp => by
    intro h
    rw [findSlashGo] at h
    split at h
    · cases h
      simp only [List.length_cons]
      omega
    · have hrec := findSlashGo_bounds (b :: rest) (i + 1) sp h
      simp only [List.length_cons] at hrec ⊢
      omega

theorem findSlash_bounds {m : List Nat} {pos sp : Nat}
    (h : findSlash m pos = some sp) : pos ≤ sp ∧ sp + 1 < m.length := by
  unfold findSlash at h
  have hb := findSlashGo_bounds (m.drop pos) pos sp h
  rw [List.length_drop] at hb
  omega

theorem extendRightF_ge (m : List Nat) : ∀ f e, e ≤ extendRightF m f e := by
  intro f
  induction f with
  | zero => intro e; exact le_refl _
  | succ f ih =>
    intro e
    simp only [extendRightF]
    split
    · split
      · exact le_trans (by omega) (ih (e + 2))
      · exact le_refl _
    · exact le_refl _

theorem extendRight_ge (m : List Nat) (e : Nat) : e ≤ extendRight m e :=
  extendRightF_ge m m.length e

theorem nextPos_lower {m : List Nat} {pos sp : Nat}
    (h : findSlash m pos = some sp) : pos + 2 ≤ nextPos m sp ∧ nextPos m sp ≤ m.length := by
  obtain ⟨h1, h2⟩ := findSlash_bounds h
  unfold nextPos
  have he := extendRight_ge m (sp + 2)
  split_ifs <;> omega

/-- The seed loop of `search_memory`, with explicit fuel (`len + 1 - pos`
bounds the number of iterations because the cursor strictly increases and
stays at most `len`). -/
def searchLoopF (nsw msg : Bool) (cont : List Char → Bool)
    (cfg : PathSearcherConfig) (m : List Nat) : Nat → Nat → SearchState → SearchState
  | 0, _, st => st
  | f + 1, pos, st =>
    match findSlash m pos with
    | none => st
    | some sp =>
      let st1 := seedIteration nsw msg cont cfg m sp st
      searchLoopF nsw msg cont cfg m f (nextPos m sp) { st1 with iters := st1.iters + 1 }

/-- The seed loop of `search_memory`. -/
def searchLoop (nsw msg : Bool) (cont : List Char → Bool)
    (cfg : PathSearcherConfig) (m : List Nat) (pos : Nat) (st : SearchState) :
    SearchState :=
  searchLoopF nsw msg cont cfg m (m.length + 1 - pos) pos st

/-- Fuel irrelevance for the seed loop: any fuel at least `len + 1 - pos`
computes the same result, so `searchLoop` is the Rust `while let` loop. -/
theorem searchLoopF_congr (nsw msg : Bool) (cont : List Char → Bool)
    (cfg : PathSearcherConfig) (m : List Nat) :
    ∀ f g pos st, m.length + 1 - pos ≤ f → m.length + 1 - pos ≤ g →
      searchLoopF nsw msg cont cfg m f pos st = searchLoopF nsw msg cont cfg m g pos st := by
  intro f
  induction f with
  | zero =>
    intro g pos st hf _
    have hnone : findSlash m pos = none := by
      cases h : findSlash m pos with
      | none => rfl
      | some sp =>
        have := findSlash_bounds h
        omega
    cases g <;> simp [searchLoopF, hnone]
  | succ f ih =>
    intro g pos st hf hg
    match g with
    | 0 =>
      have hnone : findSlash m pos = none := by
        cases h : findSlash m pos with
        | none => rfl
        | some sp =>
          have := findSlash_bounds h
          omega
      simp [searchLoopF, hnone]
    | g + 1 =>
      simp only [searchLoopF]
      cases h : findSlash m pos with
      | none => rfl
      | some sp =>
        have hn := nextPos_lower h
        exact ih g (nextPos m sp) _ (by omega) (by omega)

/-- The loop equation for `searchLoop`: it satisfies exactly the recurrence
of the seed loop of `search_memory`. -/
theorem searchLoop_eq (nsw msg : Bool) (cont : List Char → Bool)
    (cfg : PathSearcherConfig) (m : List Nat) (pos : Nat) (st : SearchState) :
    searchLoop nsw msg cont cfg m pos st =
      match findSlash m pos with
      | none => st
      | some sp =>
        let st1 := seedIteration nsw msg cont cfg m sp st
        searchLoop nsw msg cont cfg m (nextPos m sp) { st1 with iters := st1.iters + 1 } := by
  have key : searchLoopF nsw msg cont cfg m (m.length + 1 - pos) pos st
      = searchLoopF nsw msg cont cfg m (m.length + 1) pos st :=
    searchLoopF_congr nsw msg cont cfg m _ _ pos st (le_refl _) (by omega)
  unfold searchLoop
  rw [key]
  simp only [searchLoopF]
  cases h : findSlash m pos with
  | none => rfl
  | some sp =>
    have hn := nextPos_lower h
    exact searchLoopF_congr nsw msg cont cfg m _ _ (nextPos m sp) _ (by omega) (by omega)

/-- `search_memory` on one buffer, from an ambient state (cache, unknown set
and collected paths are shared state in the Rust code). -/
def searchMemory (nsw msg : Bool) (cont : List Char → Bool)
    (cfg : PathSearcherConfig) (m : List Nat) (st : SearchState) : SearchState :=
  searchLoop nsw msg cont cfg m 0 st

def emptySearchState : SearchState := ⟨[], [], [], 0⟩

/-! ## Driver aggregation (src/searcher.rs, `search_memory_dump_with_progress`
and `search_pak_files_with_progress`): collect per-buffer results, then
`sort_by` on the raw path and `dedup_by` on raw-path equality. -/

/-- The comparator of `all_paths.sort_by(|(p, _), (q, _)| p.cmp(q))`; list
order on `List Char` is lexicographic, which agrees with Rust's byte-wise
`str` order on the UTF-8 encodings. -/
def keyLe (a b : List Char × List (List Char)) : Bool := decide (a.1 ≤ b.1)

/-- `Vec::dedup_by` (inner loop): drop an element equal in key to the last
kept element. -/
def dedupAdjGo (x : List Char × List (List Char)) :
    List (List Char × List (List Char)) → List (List Char × List (List Char))
  | [] => []
  | y :: ys => if y.1 = x.1 then dedupAdjGo x ys else y :: dedupAdjGo y ys

/-- `all_paths.dedup_by(|(p, _), (q, _)| p == q)`. -/
def dedupAdj : List (List Char × List (List Char)) → List (List Char × List (List Char))
  | [] => []
  | x :: xs => x :: dedupAdjGo x xs

/-- Sort by raw path (Rust `sort_by` is a stable merge sort) then dedup. -/
def aggregate (l : List (List Char × List (List Char))) :
    List (List Char × List (List Char)) :=
  dedupAdj (l.mergeSort keyLe)

/-- Run the scanner over a list of source buffers threading the shared state
(one sequentialisation of the worker pool). -/
def collectBuffers (nsw msg : Bool) (cont : List Char → Bool)
    (cfg : PathSearcherConfig) (blocks : List (List Nat)) : SearchState :=
  blocks.foldl (fun st m => searchMemory nsw msg cont cfg m st) emptySearchState

/-- The `SearchResult` of the memory-dump pipeline: aggregated found paths and
the unknown set. -/
def searchMemoryDumpModel (nsw msg : Bool) (cont : List Char → Bool)
    (cfg : PathSearcherConfig) (blocks : List (List Nat)) :
    List (List Char × List (List Char)) × List (List Char) :=
  let st := collectBuffers nsw msg cont cfg blocks
  (aggregate st.found, st.unknown)

/-- The `SearchResult` of the archive pipeline: same aggregation over the
decompressed entry buffers (extending with an empty per-entry result is a
no-op, so the `!paths.is_empty()` guard does not change the collected list). -/
def searchPakFilesModel (nsw msg : Bool) (cont : List Char → Bool)
    (cfg : PathSearcherConfig) (entries : List (List Nat)) :
    List (List Char × List (List Char)) × List (List Char) :=
  let st := collectBuffers nsw msg cont cfg entries
  (aggregate st.found, st.unknown)

/-! ## Claim C3: the path validator -/

/-- The segment of `s` after its last `c` (all of `s` when `c` is absent),
defined independently of `rsplitOnce`. -/
def lastSegBy (c : Char) (s : List Char) : List Char :=
  (s.reverse.takeWhile (fun x => x ≠ c)).reverse

/-- The segment after the last `/`. -/
def finalSeg (s : List Char) : List Char := lastSegBy '/' s

theorem takeWhile_append_of_exists {p : Char → Bool} :
    ∀ (l l' : List Char), (∃ x ∈ l, ¬ p x) →
      (l ++ l').takeWhile p = l.takeWhile p := by
  intro l
  induction l with
  | nil => intro l' h; simp at h
  | cons y t ih =>
    intro l' h
    by_cases hy : p y
    · simp only [List.cons_append, List.takeWhile_cons, hy, if_true]
      have : ∃ x ∈ t, ¬ p x := by
        obtain ⟨x, hx, hpx⟩ := h
        rcases List.mem_cons.mp hx with rfl | hxt
        · exact absurd hy hpx
        · exact ⟨x, hxt, hpx⟩
      rw [ih l' this]
    · simp [List.takeWhile_cons, hy]

theorem takeWhile_append_of_all {p : Char → Bool} :
    ∀ (l l' : List Char), (∀ x ∈ l, p x) →
      (l ++ l').takeWhile p = l ++ l'.takeWhile p := by
  intro l
  induction l with
  | nil => intro l' _; simp
  | cons y t ih =>
    intro l' h
    have hy : p y = true := h y (List.mem_cons_self y t)
    simp only [List.cons_append, List.takeWhile_cons, hy, if_true, List.cons.injEq, true_and]
    exact ih l' (fun x hx => h x (List.mem_cons_of_mem y hx))

theorem lastSegBy_cons_of_mem {c : Char} {t : List Char} (a : Char) (h : c ∈ t) :
    lastSegBy c (a :: t) = lastSegBy c t := by
  unfold lastSegBy
  rw [List.reverse_cons, takeWhile_append_of_exists]
  exact ⟨c, List.mem_reverse.mpr h, by simp⟩

theorem lastSegBy_cons_of_not_mem {c : Char} {t : List Char} (h : c ∉ t) :
    lastSegBy c (c :: t) = t := by
  unfold lastSegBy
  rw [List.reverse_cons, takeWhile_append_of_all]
  · simp
  · intro x hx
    simp only [ne_eq, decide_eq_true_eq]
    intro hxc
    exact h (List.mem_reverse.mp (hxc ▸ hx))

theorem rfindIdx_eq_none_iff (s : List Char) (c : Char) :
    rfindIdx s c = none ↔ c ∉ s := by
  induction s with
  | nil => simp [rfindIdx]
  | cons a t ih =>
    rw [rfindIdx]
    cases h : rfindIdx t c with
    | some i =>
      have : c ∈ t := by
        by_contra hc
        rw [(ih.mpr hc : rfindIdx t c = none)] at h
        cases h
      simp [this]
    | none =>
      have hct : c ∉ t := ih.mp h
      by_cases hac : a = c
      · simp [hac]
      · have hca : ¬ c = a := fun hh => hac hh.symm
        simp [hac, hct, hca]

theorem rfindIdx_some_spec {c : Char} :
    ∀ {s : List Char} {i : Nat}, rfindIdx s c = some i →
      c ∈ s ∧ s.drop (i + 1) = lastSegBy c s := by
  intro s
  induction s with
  | nil => intro i h; cases h
  | cons a t ih =>
    intro i h
    rw [rfindIdx] at h
    cases ht : rfindIdx t c with
    | some j =>
      rw [ht] at h
      cases h
      obtain ⟨hmem, hdrop⟩ := ih ht
      refine ⟨List.mem_cons_of_mem a hmem, ?_⟩
      rw [lastSegBy_cons_of_mem a hmem, ← hdrop]
      rfl
    | none =>
      rw [ht] at h
      have hct : c ∉ t := (rfindIdx_eq_none_iff t c).mp ht
      by_cases hac : a = c
      · rw [if_pos hac] at h
        cases h
        subst hac
        exact ⟨List.mem_cons_self a t, by rw [lastSegBy_cons_of_not_mem hct]; rfl⟩
      · rw [if_neg hac] at h
        cases h

theorem rsplitOnce_eq_none_iff (s : List Char) (c : Char) :
    rsplitOnce s c = none ↔ c ∉ s := by
  unfold rsplitOnce
  cases h : rfindIdx s c with
  | some i =>
    simp only []
    constructor
    · intro hx; cases hx
    · intro hc
      rw [(rfindIdx_eq_none_iff s c).mpr hc] at h
      cases h
  | none => simp [(rfindIdx_eq_none_iff s c).mp h]

theorem rsplitOnce_some_spec {s : List Char} {c : Char} {pre tail : List Char}
    (h : rsplitOnce s c = some (pre, tail)) : c ∈ s ∧ tail = lastSegBy c s := by
  unfold rsplitOnce at h
  cases hf : rfindIdx s c with
  | none => rw [hf] at h; cases h
  | some i =>
    rw [hf] at h
    cases h
    obtain ⟨hm, hd⟩ := rfindIdx_some_spec hf
    exact ⟨hm, hd.symm ▸ rfl⟩

/-- The acceptance condition exactly as claim C3 states it: `s` contains `/`,
the substring after the last `/` contains a `.` at some index `i` with
`0 < i < len - 1`, and `s` has length at least 3. -/
def claimC3Accepts (s : List Char) : Prop :=
  '/' ∈ s ∧
  (∃ i, (finalSeg s)[i]? = some '.' ∧ 0 < i ∧ i + 1 < (finalSeg s).length) ∧
  3 ≤ s.length

/-- Claim C3: the validator accepts iff the candidate contains `/`, the
segment after the last `/` has SOME interior dot, and the length is at least
3.  This is FALSE: `validate_path` looks at the FIRST dot of the final
segment (`tail.find('.')`), so `"x/.a.b"` — whose final segment `".a.b"` has
an interior dot at index 2 but starts with a dot — satisfies the claimed
condition yet is rejected by the code. -/
theorem C3_counterexample :
    validatePath "x/.a.b".toList = false ∧ claimC3Accepts "x/.a.b".toList := by
  refine ⟨by decide, by decide, ⟨2, by decide, by decide, by decide⟩, by decide⟩

/-- Claim C3 (amended): the validator accepts `s` iff `s` has length at least
3, contains `/`, and the FIRST `.` of the segment after the last `/` is at an
index `d` with `0 < d < len - 1`. -/
theorem C3_amended (s : List Char) :
    validatePath s = true ↔
      3 ≤ s.length ∧ '/' ∈ s ∧
        ∃ d, (finalSeg s).findIdx? (fun c => c = '.') = some d ∧
          0 < d ∧ d + 1 < (finalSeg s).length := by
  unfold validatePath
  by_cases h3 : s.length < 3
  · simp only [if_pos h3, Bool.false_eq_true, false_iff]
    rintro ⟨h, -⟩
    omega
  · simp only [if_neg h3]
    cases hr : rsplitOnce s '/' with
    | none =>
      have hns : '/' ∉ s := (rsplitOnce_eq_none_iff s '/').mp hr
      simp [hns]
    | some pr =>
      obtain ⟨pre, tail⟩ := pr
      obtain ⟨hmem, htail⟩ := rsplitOnce_some_spec hr
      subst htail
      cases hd : (lastSegBy '/' s).findIdx? (fun c => c = '.') with
      | none =>
        simp only [finalSeg, hd, Bool.false_eq_true, false_iff]
        rintro ⟨-, -, d, hfind, -⟩
        cases hfind
      | some d =>
        have hlen : d < (lastSegBy '/' s).length := by
          have := List.findIdx?_eq_some_iff_getElem.mp hd
          exact this.1
        simp only [finalSeg, hd, Bool.and_eq_true, decide_eq_true_eq,
          Option.some.injEq]
        constructor
        · rintro ⟨h1, h2⟩
          exact ⟨by omega, hmem, d, rfl, h1, by omega⟩
        · rintro ⟨-, -, d2, rfl, h1, h2⟩
          exact ⟨h1, by omega⟩

/-! ## Claim C2: the base candidate set -/

/-- The platform tag the spec assigns to each known prefix. -/
def claimC2PlatformTag (P : List Char) : List Char :=
  if P = "natives/STM/".toList then "STM".toList
  else if P = "natives/NSW/".toList then "NSW".toList
  else if P = "natives/MSG/".toList then "MSG".toList
  else []

/-- The base candidate set exactly as claim C2 states it: for each prefix `P`
in the config, the three shapes `P+raw+"."+V`, `P+raw+"."+V+".X64"` and
`P+raw+"."+V+".<platform-tag>"`. -/
def claimC2BaseSet (cfg : PathSearcherConfig) (path : List Char) (v : Nat) :
    List (List Char) :=
  cfg.prefixes.flatMap (fun P =>
    [P ++ path ++ dotNum v,
     P ++ path ++ dotNum v ++ ".X64".toList,
     P ++ path ++ dotNum v ++ '.' :: claimC2PlatformTag P])

def cfgC2 : PathSearcherConfig := ⟨[], ["natives/NSW/".toList], []⟩

/-- Claim C2 is false: with a config whose prefix list is `[natives/NSW/]`,
the probed candidate set claimed by the spec differs from the one the code
builds, for every combination of the `nsw`/`msg` compile-time features — the
code hardcodes the prefixes (three shapes for STM, only two for NSW, three
for MSG) instead of reading them from the config. -/
theorem C2_counterexample :
    basePaths false false "a/b.tex".toList 1 ≠ claimC2BaseSet cfgC2 "a/b.tex".toList 1 ∧
    basePaths false true "a/b.tex".toList 1 ≠ claimC2BaseSet cfgC2 "a/b.tex".toList 1 ∧
    basePaths true false "a/b.tex".toList 1 ≠ claimC2BaseSet cfgC2 "a/b.tex".toList 1 ∧
    basePaths true true "a/b.tex".toList 1 ≠ claimC2BaseSet cfgC2 "a/b.tex".toList 1 := by
  refine ⟨by decide, by decide, by decide, by decide⟩

/-- The per-prefix shape table the code actually uses: `natives/STM/` gets
base, `.X64` and `.STM`; `natives/NSW/` (feature `nsw`) gets base and `.NSW`
only; `natives/MSG/` (feature `msg`) gets base, `.X64` and `.MSG`. -/
def codeShapeTable (nsw msg : Bool) : List (List Char × List (List Char)) :=
  [("natives/STM/".toList, [[], ".X64".toList, ".STM".toList])] ++
  (if nsw then [("natives/NSW/".toList, [[], ".NSW".toList])] else []) ++
  (if msg then [("natives/MSG/".toList, [[], ".X64".toList, ".MSG".toList])] else [])

/-- Claim C2 (amended): the base candidate set is determined by the hardcoded
prefix/shape table of the code (grouped by prefix, shapes in declared order),
independently of the prefixes stored in the config; in particular NSW gets
only the base and `.NSW` shapes. -/
theorem C2_amended (nsw msg : Bool) (path : List Char) (v : Nat) :
    basePaths nsw msg path v =
      (codeShapeTable nsw msg).flatMap
        (fun pr => pr.2.map (fun shape => pr.1 ++ path ++ dotNum v ++ shape)) := by
  cases nsw <;> cases msg <;> simp [basePaths, codeShapeTable]

/-! ## Claim C5: order of matches within one version -/

theorem foldl_app {α β : Type} (g : α → List β) :
    ∀ (l : List α) (acc : List β),
      l.foldl (fun a x => a ++ g x) acc = acc ++ l.flatMap g := by
  intro l
  induction l with
  | nil => intro acc; simp
  | cons x t ih =>
    intro acc
    simp only [List.foldl_cons, List.flatMap_cons, ih (acc ++ g x), List.append_assoc]

/-- Claim C5: within one version, `find_path_i18n` emits, in the order of the
candidate list (prefix-major, then shape), the base path when the archive
contains it followed by the contained language variants in config-declared
language order, each as a separate result. -/
theorem C5_order (nsw msg : Bool) (cont : List Char → Bool)
    (cfg : PathSearcherConfig) (path : List Char) (v : Nat) :
    collectVersion nsw msg cont cfg path v =
      (basePaths nsw msg path v).flatMap (fun b =>
        (if cont b then [b] else []) ++
        cfg.languages.flatMap
          (fun l => if cont (langVariant b l) then [langVariant b l] else [])) := by
  unfold collectVersion
  have inner : ∀ (b : List Char) (acc : List (List Char)),
      cfg.languages.foldl
        (fun acc2 l => if cont (langVariant b l) then acc2 ++ [langVariant b l] else acc2)
        acc
      = acc ++ cfg.languages.flatMap
          (fun l => if cont (langVariant b l) then [langVariant b l] else []) := by
    intro b acc
    have hfun : (fun acc2 l =>
          if cont (langVariant b l) then acc2 ++ [langVariant b l] else acc2)
        = fun (acc2 : List (List Char)) l =>
            acc2 ++ (if cont (langVariant b l) then [langVariant b l] else []) := by
      funext acc2 l
      split <;> simp
    rw [hfun, foldl_app]
  have outer : (fun (acc : List (List Char)) (b : List Char) =>
        cfg.languages.foldl
          (fun acc2 l => if cont (langVariant b l) then acc2 ++ [langVariant b l] else acc2)
          (if cont b then acc ++ [b] else acc))
      = fun acc b =>
          acc ++ ((if cont b then [b] else []) ++
            cfg.languages.flatMap
              (fun l => if cont (langVariant b l) then [langVariant b l] else [])) := by
    funext acc b
    rw [inner]
    split <;> simp
  rw [outer, foldl_app]
  simp

/-! ## Claim C4: version probing order -/

def cfgC4 : PathSearcherConfig :=
  ⟨["Ja".toList], ["natives/STM/".toList], [("chain2".toList, [12, 13])]⟩

/-- An archive containing the language variant of table version 13 and the
base path of table version 12 of raw path `x/y.chain2` (the `chain2` table is
`[12, 13]`, oldest first). -/
def contC4 (s : List Char) : Bool :=
  s == "natives/STM/x/y.chain2.13.Ja".toList ||
  s == "natives/STM/x/y.chain2.12".toList

/-- Claim C4 is false as stated: version 13 (the newest) has NO base hit —
only its `Ja` language variant is in the archive — while version 12 has a
base hit.  The claim says the prober returns the matches of the first
version with a base hit (version 12), but the code stops at version 13
because a language-variant hit already makes its result nonempty, and the
version-12 base path is absent from the output.  This holds for every
`nsw`/`msg` feature combination. -/
theorem C4_counterexample :
    findPathI18n false false contC4 cfgC4 "x/y.chain2".toList
      = some ["natives/STM/x/y.chain2.13.Ja".toList] ∧
    findPathI18n false true contC4 cfgC4 "x/y.chain2".toList
      = some ["natives/STM/x/y.chain2.13.Ja".toList] ∧
    findPathI18n true false contC4 cfgC4 "x/y.chain2".toList
      = some ["natives/STM/x/y.chain2.13.Ja".toList] ∧
    findPathI18n true true contC4 cfgC4 "x/y.chain2".toList
      = some ["natives/STM/x/y.chain2.13.Ja".toList] ∧
    (basePaths true true "x/y.chain2".toList 13).all (fun b => !contC4 b) = true ∧
    contC4 "natives/STM/x/y.chain2.12".toList = true ∧
    "natives/STM/x/y.chain2.12".toList ∈ basePaths false false "x/y.chain2".toList 12 ∧
    "natives/STM/x/y.chain2.12".toList ∉ ["natives/STM/x/y.chain2.13.Ja".toList] := by
  refine ⟨by decide, by decide, by decide, by decide, by decide, by decide, by decide, by decide⟩

/-- The version loop returns the collected matches (plus streaming overlay)
of the first version in the given order whose collected result is nonempty. -/
theorem tryVersions_eq_dropWhile (nsw msg : Bool) (cont : List Char → Bool)
    (cfg : PathSearcherConfig) (path : List Char) :
    ∀ vs : List Nat,
      tryVersions nsw msg cont cfg path vs =
        match vs.dropWhile (fun v => (collectVersion nsw msg cont cfg path v).isEmpty) with
        | [] => []
        | v :: _ =>
          collectVersion nsw msg cont cfg path v ++
            streamingVariants cont cfg (collectVersion nsw msg cont cfg path v) := by
  intro vs
  induction vs with
  | nil => rfl
  | cons v rest ih =>
    rw [tryVersions, List.dropWhile_cons]
    by_cases h : (collectVersion nsw msg cont cfg path v).isEmpty
    · rw [if_pos h, if_pos h, ih]
    · rw [if_neg h, if_neg (by simpa using h)]

/-- Claim C4 (amended): for a raw path whose extension maps to a version list
in the table, the prober walks the versions in reverse (newest-first) order
and returns the matches — with the streaming overlay appended — of the first
version producing at least one hit (base or language variant); once such a
version is found, older versions contribute nothing. -/
theorem C4_amended (nsw msg : Bool) (cont : List Char → Bool)
    (cfg : PathSearcherConfig) (path ext : List Char) (vs : List Nat)
    (hext : extOf path = some ext) (hvs : suffixVersions cfg ext = some vs) :
    findPathI18n nsw msg cont cfg path =
      some (match vs.reverse.dropWhile
              (fun v => (collectVersion nsw msg cont cfg path v).isEmpty) with
            | [] => []
            | v :: _ =>
              collectVersion nsw msg cont cfg path v ++
                streamingVariants cont cfg (collectVersion nsw msg cont cfg path v)) := by
  unfold findPathI18n
  rw [hext]
  simp only []
  rw [hvs]
  simp only []
  rw [tryVersions_eq_dropWhile]

/-- Witness for `C4_amended`: the concrete scenario of the counterexample
satisfies its hypotheses, and the amended description reproduces the code's
output. -/
theorem C4_amended_witness :
    findPathI18n false false contC4 cfgC4 "x/y.chain2".toList =
      some (match ([12, 13] : List Nat).reverse.dropWhile
              (fun v => (collectVersion false false contC4 cfgC4 "x/y.chain2".toList v).isEmpty) with
            | [] => []
            | v :: _ =>
              collectVersion false false contC4 cfgC4 "x/y.chain2".toList v ++
                streamingVariants contC4 cfgC4
                  (collectVersion false false contC4 cfgC4 "x/y.chain2".toList v)) :=
  C4_amended false false contC4 cfgC4 "x/y.chain2".toList "chain2".toList [12, 13]
    (by decide) (by decide)

/-! ## Claim C1: unknown paths versus found paths -/

def cfgC1 : PathSearcherConfig :=
  ⟨["Ja".toList], ["natives/STM/".toList], [("tex".toList, [1])]⟩

/-- An empty archive: the membership test never succeeds. -/
def contEmpty : List Char → Bool := fun _ => false

/-- The UTF-16LE bytes of `a/b.tex`. -/
def bufC1 : List Nat := [97, 0, 47, 0, 98, 0, 46, 0, 116, 0, 101, 0, 120, 0]

/-- Claim C1 is false: `a/b.tex` passes validation and its expansion matches
no archive entry (the archive is empty, every probe fails), yet `find_path_i18n`
returns `Ok` with an empty match list — the error path is taken only for a
missing or unknown extension — so the raw path lands in `found_paths` paired
with an empty list and `unknown_paths` stays empty.  This holds for every
`nsw`/`msg` feature combination. -/
theorem C1_counterexample :
    validatePath "a/b.tex".toList = true ∧
    findPathI18n false false contEmpty cfgC1 "a/b.tex".toList = some [] ∧
    findPathI18n true true contEmpty cfgC1 "a/b.tex".toList = some [] ∧
    (searchMemory false false contEmpty cfgC1 bufC1 emptySearchState).found
      = [("a/b.tex".toList, [])] ∧
    (searchMemory false false contEmpty cfgC1 bufC1 emptySearchState).unknown = [] ∧
    (searchMemory true true contEmpty cfgC1 bufC1 emptySearchState).found
      = [("a/b.tex".toList, [])] ∧
    (searchMemory true true contEmpty cfgC1 bufC1 emptySearchState).unknown = [] := by
  refine ⟨by decide, by decide, by decide, by decide, by decide, by decide, by decide⟩

/-- Claim C1 (amended): on a cache miss, a validated candidate is recorded in
`unknown_paths` (and kept out of `found_paths`) exactly when its resolution
errors — missing extension or extension absent from the table; when the
extension is known, the candidate is appended to `found_paths` with whatever
match list resolution produced, which may be empty when no expansion is in
the archive. -/
theorem C1_amended (nsw msg : Bool) (cont : List Char → Bool)
    (cfg : PathSearcherConfig) (path : List Char) (st : SearchState)
    (hmiss : lookupCache st.cache path = none) :
    (findPathI18n nsw msg cont cfg path = none →
      (processCandidate nsw msg cont cfg path st).unknown = insertSet path st.unknown ∧
      (processCandidate nsw msg cont cfg path st).found = st.found) ∧
    (∀ hashes, findPathI18n nsw msg cont cfg path = some hashes →
      (processCandidate nsw msg cont cfg path st).unknown = st.unknown ∧
      (processCandidate nsw msg cont cfg path st).found = st.found ++ [(path, hashes)]) := by
  unfold processCandidate
  rw [hmiss]
  constructor
  · intro h
    rw [h]
    exact ⟨rfl, rfl⟩
  · intro hashes h
    rw [h]
    exact ⟨rfl, rfl⟩

/-- Witness for `C1_amended` at the concrete counterexample scenario. -/
theorem C1_amended_witness :
    (findPathI18n false false contEmpty cfgC1 "a/b.tex".toList = none →
      (processCandidate false false contEmpty cfgC1 "a/b.tex".toList emptySearchState).unknown
        = insertSet "a/b.tex".toList emptySearchState.unknown ∧
      (processCandidate false false contEmpty cfgC1 "a/b.tex".toList emptySearchState).found
        = emptySearchState.found) ∧
    (∀ hashes, findPathI18n false false contEmpty cfgC1 "a/b.tex".toList = some hashes →
      (processCandidate false false contEmpty cfgC1 "a/b.tex".toList emptySearchState).unknown
        = emptySearchState.unknown ∧
      (processCandidate false false contEmpty cfgC1 "a/b.tex".toList emptySearchState).found
        = emptySearchState.found ++ [("a/b.tex".toList, hashes)]) :=
  C1_amended false false contEmpty cfgC1 "a/b.tex".toList emptySearchState (by decide)

/-! ## Claim C7: result cache idempotence -/

theorem lookupCache_append_self {cache : List (List Char × Option (List (List Char)))}
    {path : List Char} (h : lookupCache cache path = none)
    (r : Option (List (List Char))) :
    lookupCache (cache ++ [(path, r)]) path = some r := by
  induction cache with
  | nil => simp [lookupCache]
  | cons kv rest ih =>
    by_cases hkv : (kv.1 == path) = true
    · simp [lookupCache, List.find?_cons, hkv] at h
    · have hrest : lookupCache rest path = none := by
        simpa [lookupCache, List.find?_cons, hkv] using h
      simpa [lookupCache, List.find?_cons, hkv] using ih hrest

theorem lookupCache_none_not_mem {cache : List (List Char × Option (List (List Char)))}
    {path : List Char} (h : lookupCache cache path = none) :
    path ∉ cache.map (·.1) := by
  induction cache with
  | nil => simp
  | cons kv rest ih =>
    by_cases hkv : (kv.1 == path) = true
    · simp [lookupCache, List.find?_cons, hkv] at h
    · have hrest : lookupCache rest path = none := by
        simpa [lookupCache, List.find?_cons, hkv] using h
      simp only [List.map_cons, List.mem_cons]
      rintro (rfl | hmem)
      · simp at hkv
      · exact ih hrest hmem

theorem processCandidate_hit_some {nsw msg : Bool} {cont : List Char → Bool}
    {cfg : PathSearcherConfig} {path : List Char} {st : SearchState}
    {l : List (List Char)} (h : lookupCache st.cache path = some (some l)) :
    processCandidate nsw msg cont cfg path st = { st with found := st.found ++ [(path, l)] } := by
  unfold processCandidate
  rw [h]

theorem processCandidate_hit_none {nsw msg : Bool} {cont : List Char → Bool}
    {cfg : PathSearcherConfig} {path : List Char} {st : SearchState}
    (h : lookupCache st.cache path = some none) :
    processCandidate nsw msg cont cfg path st = st := by
  unfold processCandidate
  rw [h]

/-- Claim C7: after a first resolution of `path` (cache miss), (a) the cache
gained exactly one entry for `path` holding the resolution outcome and a
previously duplicate-free cache stays duplicate-free (written at most once);
(b) any later occurrence of `path` leaves cache and unknown set unchanged no
matter what the archive now answers (no re-probe); (c) if the first
resolution succeeded, a later occurrence appends the identical match list;
(d) if it failed, a later occurrence is skipped entirely. -/
theorem C7_cache_idempotent (nsw msg : Bool) (cont : List Char → Bool)
    (cfg : PathSearcherConfig) (path : List Char) (st : SearchState)
    (hmiss : lookupCache st.cache path = none) :
    (processCandidate nsw msg cont cfg path st).cache
        = st.cache ++ [(path, findPathI18n nsw msg cont cfg path)] ∧
    ((st.cache.map (·.1)).Nodup →
      (((processCandidate nsw msg cont cfg path st).cache.map (·.1)).Nodup)) ∧
    (∀ cont2 : List Char → Bool,
      (processCandidate nsw msg cont2 cfg path
          (processCandidate nsw msg cont cfg path st)).cache
        = (processCandidate nsw msg cont cfg path st).cache ∧
      (processCandidate nsw msg cont2 cfg path
          (processCandidate nsw msg cont cfg path st)).unknown
        = (processCandidate nsw msg cont cfg path st).unknown) ∧
    (∀ hashes, findPathI18n nsw msg cont cfg path = some hashes →
      ∀ cont2 : List Char → Bool,
        processCandidate nsw msg cont2 cfg path
            (processCandidate nsw msg cont cfg path st)
          = { processCandidate nsw msg cont cfg path st with
              found := (processCandidate nsw msg cont cfg path st).found
                        ++ [(path, hashes)] }) ∧
    (findPathI18n nsw msg cont cfg path = none →
      ∀ cont2 : List Char → Bool,
        processCandidate nsw msg cont2 cfg path
            (processCandidate nsw msg cont cfg path st)
          = processCandidate nsw msg cont cfg path st) := by
  have hcache : (processCandidate nsw msg cont cfg path st).cache
      = st.cache ++ [(path, findPathI18n nsw msg cont cfg path)] := by
    unfold processCandidate
    rw [hmiss]
    cases h : findPathI18n nsw msg cont cfg path <;> rfl
  have hlook : lookupCache (processCandidate nsw msg cont cfg path st).cache path
      = some (findPathI18n nsw msg cont cfg path) := by
    rw [hcache]
    exact lookupCache_append_self hmiss _
  refine ⟨hcache, ?_, ?_, ?_, ?_⟩
  · intro hnd
    rw [hcache, List.map_append, List.nodup_append]
    exact ⟨hnd, by simp, by simpa using lookupCache_none_not_mem hmiss⟩
  · intro cont2
    cases h : findPathI18n nsw msg cont cfg path with
    | none =>
      rw [processCandidate_hit_none (h ▸ hlook)]
      exact ⟨rfl, rfl⟩
    | some hashes =>
      rw [processCandidate_hit_some (h ▸ hlook)]
      exact ⟨rfl, rfl⟩
  · intro hashes h cont2
    exact processCandidate_hit_some (h ▸ hlook)
  · intro h cont2
    exact processCandidate_hit_none (h ▸ hlook)

/-- Witness for `C7_cache_idempotent`: a fresh state misses the cache. -/
theorem C7_cache_idempotent_witness :
    (processCandidate false false contEmpty cfgC1 "a/b.tex".toList emptySearchState).cache
        = emptySearchState.cache
          ++ [("a/b.tex".toList, findPathI18n false false contEmpty cfgC1 "a/b.tex".toList)] ∧
    ((emptySearchState.cache.map (·.1)).Nodup →
      (((processCandidate false false contEmpty cfgC1 "a/b.tex".toList
          emptySearchState).cache.map (·.1)).Nodup)) ∧
    (∀ cont2 : List Char → Bool,
      (processCandidate false false cont2 cfgC1 "a/b.tex".toList
          (processCandidate false false contEmpty cfgC1 "a/b.tex".toList emptySearchState)).cache
        = (processCandidate false false contEmpty cfgC1 "a/b.tex".toList
            emptySearchState).cache ∧
      (processCandidate false false cont2 cfgC1 "a/b.tex".toList
          (processCandidate false false contEmpty cfgC1 "a/b.tex".toList emptySearchState)).unknown
        = (processCandidate false false contEmpty cfgC1 "a/b.tex".toList
            emptySearchState).unknown) ∧
    (∀ hashes, findPathI18n false false contEmpty cfgC1 "a/b.tex".toList = some hashes →
      ∀ cont2 : List Char → Bool,
        processCandidate false false cont2 cfgC1 "a/b.tex".toList
            (processCandidate false false contEmpty cfgC1 "a/b.tex".toList emptySearchState)
          = { processCandidate false false contEmpty cfgC1 "a/b.tex".toList emptySearchState with
              found := (processCandidate false false contEmpty cfgC1 "a/b.tex".toList
                          emptySearchState).found ++ [("a/b.tex".toList, hashes)] }) ∧
    (findPathI18n false false contEmpty cfgC1 "a/b.tex".toList = none →
      ∀ cont2 : List Char → Bool,
        processCandidate false false cont2 cfgC1 "a/b.tex".toList
            (processCandidate false false contEmpty cfgC1 "a/b.tex".toList emptySearchState)
          = processCandidate false false contEmpty cfgC1 "a/b.tex".toList emptySearchState) :=
  C7_cache_idempotent false false contEmpty cfgC1 "a/b.tex".toList emptySearchState (by decide)

/-! ## Claim C10: termination of the seed loop -/

theorem seedIteration_iters (nsw msg : Bool) (cont : List Char → Bool)
    (cfg : PathSearcherConfig) (m : List Nat) (sp : Nat) (st : SearchState) :
    (seedIteration nsw msg cont cfg m sp st).iters = st.iters := by
  unfold seedIteration
  split
  · rfl
  · split
    · rfl
    · split
      · rfl
      · split
        · unfold processCandidate
          split
          · rfl
          · rfl
          · split <;> rfl
        · rfl

theorem processCandidate_iters (nsw msg : Bool) (cont : List Char → Bool)
    (cfg : PathSearcherConfig) (path : List Char) (st : SearchState) :
    (processCandidate nsw msg cont cfg path st).iters = st.iters := by
  unfold processCandidate
  split
  · rfl
  · rfl
  · split <;> rfl

theorem searchLoopF_iters (nsw msg : Bool) (cont : List Char → Bool)
    (cfg : PathSearcherConfig) (m : List Nat) :
    ∀ f pos st, m.length + 1 - pos ≤ f →
      (searchLoopF nsw msg cont cfg m f pos st).iters
        ≤ st.iters + (m.length - pos) / 2 := by
  intro f
  induction f with
  | zero => intro pos st _; exact Nat.le_add_right _ _
  | succ f ih =>
    intro pos st hf
    rw [searchLoopF]
    cases h : findSlash m pos with
    | none => exact Nat.le_add_right _ _
    | some sp =>
      have hb := findSlash_bounds h
      have hn := nextPos_lower h
      simp only []
      set st1 : SearchState :=
        { cache := (seedIteration nsw msg cont cfg m sp st).cache,
          unknown := (seedIteration nsw msg cont cfg m sp st).unknown,
          found := (seedIteration nsw msg cont cfg m sp st).found,
          iters := (seedIteration nsw msg cont cfg m sp st).iters + 1 } with hst1
      have hit : st1.iters = st.iters + 1 := by
        rw [hst1]
        simp [seedIteration_iters]
      have hrec := ih (nextPos m sp) st1 (by omega)
      omega

/-- Claim C10: the seed loop of `search_memory` performs at most `len / 2`
iterations — the cursor strictly increases by at least 2 each round and is
bounded by the buffer length. -/
theorem C10_loop_bound (nsw msg : Bool) (cont : List Char → Bool)
    (cfg : PathSearcherConfig) (m : List Nat) (st : SearchState) :
    (searchMemory nsw msg cont cfg m st).iters ≤ st.iters + m.length / 2 := by
  unfold searchMemory searchLoop
  have := searchLoopF_iters nsw msg cont cfg m (m.length + 1 - 0) 0 st (le_refl _)
  simpa using this

/-! ## Claim C6: boundary seeds yield no candidate -/

theorem extendLeftF_le_parity (m : List Nat) :
    ∀ f b, extendLeftF m f b ≤ b ∧ (b - extendLeftF m f b) % 2 = 0 := by
  intro f
  induction f with
  | zero =>
    intro b
    simp only [extendLeftF]
    exact ⟨le_refl _, by simp⟩
  | succ f ih =>
    intro b
    simp only [extendLeftF]
    split
    · exact ⟨le_refl _, by simp⟩
    · split
      · obtain ⟨h1, h2⟩ := ih (b - 2)
        exact ⟨by omega, by omega⟩
      · exact ⟨le_refl _, by simp⟩

theorem chunkUnits_append_pair :
    ∀ (l : List Nat) (a b : Nat), l.length % 2 = 0 →
      chunkUnits (l ++ [a, b]) = chunkUnits l ++ [a + 256 * b]
  | [], a, b => by intro _; rfl
  | [x], a, b => by intro h; simp at h
  | x :: y :: rest, a, b => by
    intro h
    simp only [List.length_cons] at h
    rw [List.cons_append, List.cons_append, chunkUnits, chunkUnits,
      chunkUnits_append_pair rest a b (by omega)]
    rfl

theorem decodeUnits_append_slash :
    ∀ (us : List Nat) (l : List Char),
      decodeUnits (us ++ [47]) = some l → ∃ lf, l = lf ++ ['/']
  | [], l => by
    intro h
    rw [List.nil_append] at h
    have h47 : decodeUnits [47] = some ['/'] := by decide
    rw [h47] at h
    cases h
    exact ⟨[], rfl⟩
  | [u], l => by
    intro h
    rw [List.cons_append, List.nil_append, decodeUnits] at h
    split at h
    · cases hr : decodeUnits [47] with
      | none => rw [hr] at h; cases h
      | some l2 =>
        rw [hr] at h
        cases h
        have hl2 : l2 = ['/'] := by
          have h47 : decodeUnits [47] = some ['/'] := by decide
          rw [h47] at hr
          cases hr
          rfl
        exact ⟨[Char.ofNat u], by rw [hl2]; rfl⟩
    · split at h
      · rw [if_neg (by omega : ¬ (0xDC00 ≤ 47 ∧ 47 < 0xE000))] at h
        cases h
      · cases h
  | u :: v :: rest, l => by
    intro h
    rw [List.cons_append, List.cons_append, decodeUnits] at h
    split at h
    · cases hr : decodeUnits (v :: rest ++ [47]) with
      | none =>
        rw [List.cons_append] at hr
        rw [hr] at h
        cases h
      | some l2 =>
        rw [List.cons_append] at hr
        rw [hr] at h
        cases h
        obtain ⟨lf, rfl⟩ := decodeUnits_append_slash (v :: rest) l2 hr
        exact ⟨Char.ofNat u :: lf, rfl⟩
    · split at h
      · split at h
        · cases hr : decodeUnits (rest ++ [47]) with
          | none => rw [hr] at h; cases h
          | some l2 =>
            rw [hr] at h
            cases h
            obtain ⟨lf, rfl⟩ := decodeUnits_append_slash rest l2 hr
            exact ⟨_ :: lf, rfl⟩
        · cases h
      · cases h

theorem rfindIdx_append_last (l : List Char) (c : Char) :
    rfindIdx (l ++ [c]) c = some l.length := by
  induction l with
  | nil =>
    rw [List.nil_append, rfindIdx, rfindIdx]
    simp
  | cons x t ih =>
    rw [List.cons_append, rfindIdx, ih]
    simp

theorem validatePath_trailing_slash (lf : List Char) :
    validatePath (lf ++ ['/']) = false := by
  unfold validatePath
  split
  · rfl
  · have hsplit : rsplitOnce (lf ++ ['/']) '/' =
        some ((lf ++ ['/']).take lf.length, (lf ++ ['/']).drop (lf.length + 1)) := by
      unfold rsplitOnce
      rw [rfindIdx_append_last]
    rw [hsplit]
    have hdrop : (lf ++ ['/']).drop (lf.length + 1) = [] :=
      List.drop_eq_nil_of_le (by simp)
    rw [hdrop]
    rfl

/-- Claim C6: a seed slash at byte offset 0 or at byte offset `len - 2`
contributes nothing to the scanner state: at offset 0 the left extension
makes no progress and the seed is abandoned; at `len - 2` the decoded
candidate necessarily ends in `/`, so its final segment is empty and the
validator rejects it. -/
theorem C6_boundary_seed (nsw msg : Bool) (cont : List Char → Bool)
    (cfg : PathSearcherConfig) (m : List Nat) (sp : Nat) (st : SearchState)
    (hs1 : m.getD sp 0 = 47) (hs2 : m.getD (sp + 1) 0 = 0)
    (hpos : sp = 0 ∨ sp + 2 = m.length) :
    seedIteration nsw msg cont cfg m sp st = st := by
  by_cases hL : extendLeft m sp = sp
  · unfold seedIteration
    rw [if_pos hL]
  · have hend : sp + 2 = m.length := by
      rcases hpos with rfl | hend
      · exact absurd rfl hL
      · exact hend
    unfold seedIteration
    rw [if_neg hL]
    have he : extendRight m (sp + 2) = sp + 2 := by
      rw [extendRight_eq, if_neg (by omega : ¬ sp + 2 + 1 < m.length)]
    rw [he, if_neg (by omega : ¬ sp + 2 = sp)]
    obtain ⟨hble, hbpar⟩ := extendLeftF_le_parity m sp sp
    have hble : extendLeft m sp ≤ sp := hble
    have hbpar : (sp - extendLeft m sp) % 2 = 0 := hbpar
    have hlen : m.length = sp + 2 := hend.symm
    have hslice : sliceBytes m (extendLeft m sp) (sp + 2) =
        (m.drop (extendLeft m sp)).take (sp - extendLeft m sp) ++ [47, 0] := by
      unfold sliceBytes
      have hfull : (m.drop (extendLeft m sp)).take (sp + 2 - extendLeft m sp)
          = m.drop (extendLeft m sp) :=
        List.take_of_length_le (by rw [List.length_drop]; omega)
      rw [hfull]
      have hsp_lt : sp < m.length := by omega
      have hsp1_lt : sp + 1 < m.length := by omega
      have hd2 : m.drop sp = [47, 0] := by
        rw [List.drop_eq_getElem_cons hsp_lt, List.drop_eq_getElem_cons hsp1_lt,
          List.drop_eq_nil_of_le (by omega : m.length ≤ sp + 1 + 1)]
        rw [← List.getD_eq_getElem m 0 hsp_lt, ← List.getD_eq_getElem m 0 hsp1_lt]
        rw [hs1, hs2]
      calc m.drop (extendLeft m sp)
          = (m.drop (extendLeft m sp)).take (sp - extendLeft m sp)
            ++ (m.drop (extendLeft m sp)).drop (sp - extendLeft m sp) :=
            (List.take_append_drop _ _).symm
        _ = (m.drop (extendLeft m sp)).take (sp - extendLeft m sp) ++ [47, 0] := by
            rw [List.drop_drop]
            rw [(by omega : extendLeft m sp + (sp - extendLeft m sp) = sp)]
            rw [hd2]
    rw [hslice]
    have hfrontlen : ((m.drop (extendLeft m sp)).take (sp - extendLeft m sp)).length % 2 = 0 := by
      rw [List.length_take, List.length_drop]
      have : min (sp - extendLeft m sp) (m.length - extendLeft m sp) = sp - extendLeft m sp := by
        omega
      omega
    cases hdec : stringFromUtf16Bytes
        ((m.drop (extendLeft m sp)).take (sp - extendLeft m sp) ++ [47, 0]) with
    | none => rfl
    | some path =>
      have hends : ∃ lf, path = lf ++ ['/'] := by
        unfold stringFromUtf16Bytes at hdec
        split at hdec
        · cases hdec
        · rw [chunkUnits_append_pair _ 47 0 hfrontlen] at hdec
          rw [(by norm_num : 47 + 256 * 0 = 47)] at hdec
          exact decodeUnits_append_slash _ _ hdec
      obtain ⟨lf, rfl⟩ := hends
      show (if validatePath (lf ++ ['/']) = true then
              processCandidate nsw msg cont cfg (lf ++ ['/']) st
            else st) = st
      rw [validatePath_trailing_slash]
      rfl

/-- Witness for `C6_boundary_seed`: the UTF-16LE buffer of `a.b/` has its
seed slash at offset `len - 2`; the iteration leaves the state untouched
even though the archive test accepts everything. -/
theorem C6_boundary_seed_witness :
    seedIteration false false (fun _ => true) cfgC1 [97, 0, 46, 0, 98, 0, 47, 0] 6
      emptySearchState = emptySearchState :=
  C6_boundary_seed false false (fun _ => true) cfgC1 [97, 0, 46, 0, 98, 0, 47, 0] 6
    emptySearchState (by decide) (by decide) (Or.inr (by decide))

/-! ## Claim C9: sortedness and deduplication of the driver output -/

/-- Keep the first entry of each raw-path key, scanning left to right — the
declarative description of what sort-then-dedup achieves. -/
def dedupFirstOcc : List (List Char × List (List Char)) → List (List Char × List (List Char))
  | [] => []
  | x :: xs => x :: dedupFirstOcc (xs.filter (fun y => !(y.1 == x.1)))
termination_by l => l.length
decreasing_by
  simp only [List.length_cons]
  exact Nat.lt_succ_of_le (List.length_filter_le _ _)

theorem dedupAdjGo_sublist :
    ∀ (x : List Char × List (List Char)) (l), List.Sublist (dedupAdjGo x l) l := by
  intro x l
  induction l generalizing x with
  | nil => exact List.Sublist.refl _
  | cons y ys ih =>
    rw [dedupAdjGo]
    split
    · exact (ih x).trans (List.sublist_cons_self y ys)
    · exact List.Sublist.cons₂ y (ih y)

theorem dedupAdjGo_pairwise_lt :
    ∀ (l : List (List Char × List (List Char))) (x),
      List.Pairwise (fun a b => a.1 ≤ b.1) (x :: l) →
      List.Pairwise (fun a b => a.1 < b.1) (x :: dedupAdjGo x l) := by
  intro l
  induction l with
  | nil => intro x _; simp [dedupAdjGo]
  | cons y ys ih =>
    intro x hp
    rw [List.pairwise_cons] at hp
    obtain ⟨hx, hyys⟩ := hp
    rw [dedupAdjGo]
    split
    · rename_i heq
      apply ih x
      rw [List.pairwise_cons]
      rw [List.pairwise_cons] at hyys
      exact ⟨fun z hz => hx z (List.mem_cons_of_mem y hz), hyys.2⟩
    · rename_i hne
      have hxy : x.1 < y.1 :=
        lt_of_le_of_ne (hx y (List.mem_cons_self y ys)) (fun hh => hne hh.symm)
      have hrec := ih y hyys
      rw [List.pairwise_cons]
      refine ⟨?_, hrec⟩
      intro z hz
      rcases List.mem_cons.mp hz with rfl | hz2
      · exact hxy
      · rw [List.pairwise_cons] at hrec
        exact hxy.trans (hrec.1 z hz2)

theorem dedupAdj_pairwise_lt (l : List (List Char × List (List Char)))
    (h : List.Pairwise (fun a b => a.1 ≤ b.1) l) :
    List.Pairwise (fun a b => a.1 < b.1) (dedupAdj l) := by
  cases l with
  | nil => simp [dedupAdj]
  | cons x xs => exact dedupAdjGo_pairwise_lt xs x h

theorem dedupAdjGo_eq_firstOcc :
    ∀ (l : List (List Char × List (List Char))) (x),
      List.Pairwise (fun a b => a.1 ≤ b.1) (x :: l) →
      dedupAdjGo x l = dedupFirstOcc (l.filter (fun y => !(y.1 == x.1))) := by
  intro l
  induction l with
  | nil => intro x _; simp [dedupAdjGo, dedupFirstOcc]
  | cons y ys ih =>
    intro x hp
    rw [List.pairwise_cons] at hp
    obtain ⟨hx, hyys⟩ := hp
    rw [dedupAdjGo, List.filter_cons]
    split
    · rename_i heq
      rw [if_neg (by simp [heq])]
      apply ih x
      rw [List.pairwise_cons]
      rw [List.pairwise_cons] at hyys
      exact ⟨fun z hz => hx z (List.mem_cons_of_mem y hz), hyys.2⟩
    · rename_i hne
      have hxy : x.1 < y.1 :=
        lt_of_le_of_ne (hx y (List.mem_cons_self y ys)) (fun hh => hne hh.symm)
      rw [if_pos (by simp; exact fun hh => hne hh)]
      have hys_filter : ys.filter (fun z => !(z.1 == x.1)) = ys := by
        rw [List.filter_eq_self]
        intro z hz
        rw [List.pairwise_cons] at hyys
        have hyz : y.1 ≤ z.1 := hyys.1 z hz
        simp only [Bool.not_eq_true']
        rw [beq_eq_false_iff_ne]
        intro hzx
        rw [hzx] at hyz
        exact absurd (lt_of_lt_of_le hxy hyz) (lt_irrefl _)
      rw [hys_filter, dedupFirstOcc]
      congr 1
      exact ih y hyys

theorem keyLe_trans (a b c : List Char × List (List Char))
    (h1 : keyLe a b = true) (h2 : keyLe b c = true) : keyLe a c = true := by
  unfold keyLe at h1 h2 ⊢
  rw [decide_eq_true_eq] at h1 h2 ⊢
  exact le_trans h1 h2

theorem keyLe_total (a b : List Char × List (List Char)) :
    (keyLe a b || keyLe b a) = true := by
  unfold keyLe
  rcases le_total a.1 b.1 with h | h
  · simp [h]
  · simp [h]

theorem mergeSort_keyLe_pairwise (l : List (List Char × List (List Char))) :
    List.Pairwise (fun a b => a.1 ≤ b.1) (l.mergeSort keyLe) := by
  have h := List.sorted_mergeSort keyLe_trans keyLe_total l
  exact h.imp (fun hab => by
    unfold keyLe at hab
    exact decide_eq_true_eq.mp hab)

theorem aggregate_pairwise (l : List (List Char × List (List Char))) :
    List.Pairwise (fun a b => a.1 < b.1) (aggregate l) :=
  dedupAdj_pairwise_lt _ (mergeSort_keyLe_pairwise l)

theorem aggregate_eq_firstOcc (l : List (List Char × List (List Char))) :
    aggregate l = dedupFirstOcc (l.mergeSort keyLe) := by
  unfold aggregate
  cases h : l.mergeSort keyLe with
  | nil => simp [dedupAdj, dedupFirstOcc]
  | cons x xs =>
    have hp : List.Pairwise (fun a b => a.1 ≤ b.1) (x :: xs) := by
      rw [← h]
      exact mergeSort_keyLe_pairwise l
    rw [dedupAdj, dedupFirstOcc]
    congr 1
    have hgo := dedupAdjGo_eq_firstOcc xs x hp
    rw [hgo]

/-- Claim C9: both driver pipelines return `found_paths` sorted strictly
ascending by raw path (hence duplicate-free), and the retained entry for each
raw path is the first one of the stably sorted collected list — i.e. sort
followed by adjacent dedup keeps the first entry of each equal-raw-path
run. -/
theorem C9_sorted_dedup (nsw msg : Bool) (cont : List Char → Bool)
    (cfg : PathSearcherConfig) (blocks : List (List Nat)) :
    List.Pairwise (fun a b => a.1 < b.1) (searchMemoryDumpModel nsw msg cont cfg blocks).1 ∧
    (searchMemoryDumpModel nsw msg cont cfg blocks).1
      = dedupFirstOcc ((collectBuffers nsw msg cont cfg blocks).found.mergeSort keyLe) ∧
    List.Pairwise (fun a b => a.1 < b.1) (searchPakFilesModel nsw msg cont cfg blocks).1 ∧
    (searchPakFilesModel nsw msg cont cfg blocks).1
      = dedupFirstOcc ((collectBuffers nsw msg cont cfg blocks).found.mergeSort keyLe) :=
  ⟨aggregate_pairwise _, aggregate_eq_firstOcc _, aggregate_pairwise _, aggregate_eq_firstOcc _⟩

/-! ## Path-components parser (src/path_components.rs)

Strings are `List Char`; `Char.toLower` matches Rust's `to_ascii_lowercase`
(both only fold ASCII letters). -/

/-- `eq_ignore_ascii_case`. -/
def eqIC (a b : List Char) : Bool := a.map Char.toLower == b.map Char.toLower

/-- `starts_with_ignore_ascii_case`: `s.get(..p.len())` compared
case-insensitively (a too-short `s` fails because the lengths differ). -/
def startsWithIC (s p : List Char) : Bool :=
  (s.take p.length).map Char.toLower == p.map Char.toLower

/-- The repeated `remove(0)` loop stripping leading `@` and `/`. -/
def stripLead (s : List Char) : List Char :=
  s.dropWhile (fun c => c == '@' || c == '/')

/-- `find_ignore_ascii_case`: first index of a case-insensitive occurrence
(`some 0` for an empty needle, `none` when the needle is longer than the
remaining haystack). -/
def findIC : List Char → List Char → Option Nat
  | [], p => if p.isEmpty then some 0 else none
  | s@(_ :: t), p =>
    if p.length > s.length then none
    else if startsWithIC s p then some 0
    else (findIC t p).map (· + 1)

/-- `strip_prefix_ignore_ascii_case`. -/
def stripPfxIC (s p : List Char) : Option (List Char) :=
  if startsWithIC s p then some (s.drop p.length) else none

/-- `is_digits`: nonempty and all ASCII digits. -/
def isDigitsL (l : List Char) : Bool := !l.isEmpty && l.all (·.isDigit)

/-- `is_platform_tag`. -/
def isPlatformTagL (s : List Char) : Bool :=
  eqIC s "STM".toList || eqIC s "NSW".toList || eqIC s "MSG".toList

/-- `is_arch_tag`. -/
def isArchTagL (s : List Char) : Bool := eqIC s "X64".toList

/-- `is_language_tag`. -/
def isLanguageTagL (cfg : PathSearcherConfig) (s : List Char) : Bool :=
  cfg.languages.any (fun lang => eqIC lang s)

/-- `is_tag`. -/
def isTagL (cfg : PathSearcherConfig) (s : List Char) : Bool :=
  isLanguageTagL cfg s || isPlatformTagL s || isArchTagL s

/-- `s[..e].rfind('.')` — the dot of `last_segment_range`. -/
def lastDotBefore (s : List Char) (e : Nat) : Option Nat := rfindIdx (s.take e) '.'

/-- `s[a..b]`. -/
def sliceRange (s : List Char) (a b : Nat) : List Char := (s.take b).drop a

/-- The trailing-tail split of `parse_raw_path_range`: examine up to three
`.`-delimited segments from the end; accept `<version>`, `<version>.<tag>` or
`<version>.<tag>.<tag>` and return the index of the dot that starts the
accepted tail, the full length otherwise. -/
def tailSplit (cfg : PathSearcherConfig) (s : List Char) : Nat :=
  match lastDotBefore s s.length with
  | none => s.length
  | some dA =>
    if isDigitsL (sliceRange s (dA + 1) s.length) then dA
    else if isTagL cfg (sliceRange s (dA + 1) s.length) then
      match lastDotBefore s dA with
      | none => s.length
      | some dB =>
        if isDigitsL (sliceRange s (dB + 1) dA) then dB
        else if isTagL cfg (sliceRange s (dB + 1) dA) then
          match lastDotBefore s dB with
          | none => s.length
          | some dC => if isDigitsL (sliceRange s (dC + 1) dB) then dC else s.length
        else s.length
    else s.length

/-- The first loop of the prefix detection: length of the first config prefix
that case-insensitively starts the string, else 0. -/
def detectPfx (prefixes : List (List Char)) (s : List Char) : Nat :=
  match prefixes.find? (fun p => startsWithIC s p) with
  | some p => p.length
  | none => 0

/-- The second loop: the first config prefix with an occurrence anywhere in
the string, returning (drain position, prefix length). -/
def drainToPfx : List (List Char) → List Char → Option (Nat × Nat)
  | [], _ => none
  | p :: ps, s =>
    match findIC s p with
    | some i => some (i, p.length)
    | none => drainToPfx ps s

/-- Prefix detection plus drain of `parse_raw_path_range`: returns the
(possibly drained) string and `raw_start` before the streaming adjustment. -/
def pfxScan (cfg : PathSearcherConfig) (s1 : List Char) : List Char × Nat :=
  if detectPfx cfg.prefixes s1 = 0 then
    match drainToPfx cfg.prefixes s1 with
    | some pr => (s1.drop pr.1, pr.2)
    | none => (s1, 0)
  else (s1, detectPfx cfg.prefixes s1)

def streamingToken : List Char := "streaming/".toList

/-- The `streaming/` adjustment of `raw_start`. -/
def streamAdvance (s2 : List Char) (r2 : Nat) : Nat :=
  match stripPfxIC (s2.drop r2) streamingToken with
  | some rest => s2.length - rest.length
  | none => r2

/-- `parse_raw_path_range`: strip leading `@`/`/`, detect (or drain to) a
config prefix, skip a following `streaming/`, split the trailing tail, and
clamp `raw_end` below by `raw_start`. -/
def parseRawPathRange (cfg : PathSearcherConfig) (s0 : List Char) :
    List Char × Nat × Nat :=
  ((pfxScan cfg (stripLead s0)).1,
   streamAdvance (pfxScan cfg (stripLead s0)).1 (pfxScan cfg (stripLead s0)).2,
   if tailSplit cfg (pfxScan cfg (stripLead s0)).1
        < streamAdvance (pfxScan cfg (stripLead s0)).1 (pfxScan cfg (stripLead s0)).2 then
     streamAdvance (pfxScan cfg (stripLead s0)).1 (pfxScan cfg (stripLead s0)).2
   else tailSplit cfg (pfxScan cfg (stripLead s0)).1)

/-- The parsed record: the normalized full string and the raw-path range. -/
structure PathComponents where
  full : List Char
  rawStart : Nat
  rawEnd : Nat
deriving DecidableEq

/-- `recompute_raw_path_range`: rebuild the record from the (mutated) string. -/
def recompute (cfg : PathSearcherConfig) (s : List Char) : PathComponents :=
  ⟨(parseRawPathRange cfg s).1, (parseRawPathRange cfg s).2.1,
   (parseRawPathRange cfg s).2.2⟩

/-- `s.replace('\\', "/")` (the code skips the replacement when no `\` is
present, which yields the same string). -/
def replaceBackslash (s : List Char) : List Char :=
  s.map (fun c => if c == '\\' then '/' else c)

/-- `PathComponents::parse`: trim, reject blank and `#` comment lines,
normalize separators, then locate the raw-path range. -/
def parseLine (cfg : PathSearcherConfig) (line : List Char) : Option PathComponents :=
  let s := (line.dropWhile Char.isWhitespace).reverse.dropWhile Char.isWhitespace |>.reverse
  if s.isEmpty || s.head? == some '#' then none
  else some (recompute cfg (replaceBackslash s))

/-- `version_range`: a dot at `raw_path.end` followed by a digit-only run up
to the next dot (or the end). -/
def versionRange (pc : PathComponents) : Option (Nat × Nat) :=
  if pc.rawEnd < pc.full.length then
    if pc.full.getD pc.rawEnd ' ' = '.' then
      let start := pc.rawEnd + 1
      let stop :=
        match (pc.full.drop start).findIdx? (fun c => c = '.') with
        | some rel => start + rel
        | none => pc.full.length
      if isDigitsL (sliceRange pc.full start stop) then some (start, stop) else none
    else none
  else none

/-- `s.take a ++ r ++ s.drop b`: `String::replace_range(a..b, r)`. -/
def replaceRange (s : List Char) (a b : Nat) (r : List Char) : List Char :=
  s.take a ++ r ++ s.drop b

/-- The scan of `tag_ranges_after_version` over the part of the string after
the version, with explicit fuel (every round consumes at least the leading
dot): collect the nonempty `.`-separated segments. -/
def tagSegsF : Nat → List Char → List (List Char)
  | 0, _ => []
  | f + 1, l =>
    match l with
    | [] => []
    | c :: rest =>
      if c = '.' then
        if (rest.takeWhile (fun x => x ≠ '.')).isEmpty then
          tagSegsF f (rest.drop (rest.takeWhile (fun x => x ≠ '.')).length)
        else
          rest.takeWhile (fun x => x ≠ '.') ::
            tagSegsF f (rest.drop (rest.takeWhile (fun x => x ≠ '.')).length)
      else []

def tagSegs (l : List Char) : List (List Char) := tagSegsF l.length l

inductive TagKind where
  | platform
  | language
  | arch
  | unknown
deriving DecidableEq

/-- `classify_tag` (platform first, then arch, then language). -/
def classifyTag (cfg : PathSearcherConfig) (s : List Char) : TagKind :=
  if isPlatformTagL s then .platform
  else if isArchTagL s then .arch
  else if isLanguageTagL cfg s then .language
  else .unknown

/-- The rebuild loop of `set_tag`: keep tags of other kinds, replace the
first tag of the requested kind (drop the rest), clear on `none`, append at
the end when nothing was replaced. -/
def setTagLoop (cfg : PathSearcherConfig) (kind : TagKind)
    (newV : Option (List Char)) : List (List Char) → Bool → List (List Char)
  | [], replaced =>
    if replaced then []
    else
      match newV with
      | some v => [v]
      | none => []
  | t :: ts, replaced =>
    if classifyTag cfg t = kind then
      match newV with
      | some v =>
        if replaced then setTagLoop cfg kind newV ts replaced
        else v :: setTagLoop cfg kind newV ts true
      | none => setTagLoop cfg kind newV ts replaced
    else t :: setTagLoop cfg kind newV ts replaced

/-- `set_tag`: requires a version; rebuilds
`base ++ "." ++ version ++ (".":: tag)*` and recomputes the range. -/
def setTag (cfg : PathSearcherConfig) (pc : PathComponents) (kind : TagKind)
    (newV : Option (List Char)) : Option PathComponents :=
  match versionRange pc with
  | none => none
  | some (a, b) =>
    some (recompute cfg
      (pc.full.take pc.rawEnd ++ '.' :: sliceRange pc.full a b ++
        (setTagLoop cfg kind newV (tagSegs (pc.full.drop b)) false).flatMap
          (fun t => '.' :: t)))

/-- `set_prefix_str`. -/
def setPrefixStr (cfg : PathSearcherConfig) (pc : PathComponents)
    (newPfx : Option (List Char)) : Option PathComponents :=
  let oldLen :=
    match cfg.prefixes.find? (fun p => startsWithIC pc.full p) with
    | some p => p.length
    | none => 0
  match newPfx with
  | none => some (recompute cfg (replaceRange pc.full 0 oldLen []))
  | some p =>
    let n1 := stripLead (replaceBackslash p)
    let n2 := if !n1.isEmpty && !(n1.getLast? == some '/') then n1 ++ ['/'] else n1
    match cfg.prefixes.find? (fun allowed => eqIC allowed n2) with
    | none => none
    | some canon => some (recompute cfg (replaceRange pc.full 0 oldLen canon))

/-- `set_raw_path_str`. -/
def setRawPathStr (cfg : PathSearcherConfig) (pc : PathComponents)
    (newRaw : List Char) : Option PathComponents :=
  let n := stripLead (replaceBackslash newRaw)
  if n.isEmpty then none
  else some (recompute cfg (replaceRange pc.full pc.rawStart pc.rawEnd n))

/-- `set_version_str`. -/
def setVersionStr (cfg : PathSearcherConfig) (pc : PathComponents)
    (newV : List Char) : Option PathComponents :=
  if newV.isEmpty || !(newV.all (·.isDigit)) then none
  else
    match versionRange pc with
    | some (a, b) => some (recompute cfg (replaceRange pc.full a b newV))
    | none => some (recompute cfg (pc.full ++ '.' :: newV))

/-- `set_version_u32`: format the number and delegate. -/
def setVersionU32 (cfg : PathSearcherConfig) (pc : PathComponents) (n : Nat) :
    Option PathComponents :=
  setVersionStr cfg pc (Nat.repr n).data

/-- `clear_version`: truncate at `raw_path.end`. -/
def clearVersion (cfg : PathSearcherConfig) (pc : PathComponents) :
    Option PathComponents :=
  match versionRange pc with
  | none => none
  | some _ => some (recompute cfg (pc.full.take pc.rawEnd))

/-- `set_platform_str`: canonicalize to `STM`/`NSW`/`MSG`. -/
def setPlatformStr (cfg : PathSearcherConfig) (pc : PathComponents)
    (newP : Option (List Char)) : Option PathComponents :=
  match newP with
  | none => setTag cfg pc .platform none
  | some s =>
    if eqIC s "STM".toList then setTag cfg pc .platform (some "STM".toList)
    else if eqIC s "NSW".toList then setTag cfg pc .platform (some "NSW".toList)
    else if eqIC s "MSG".toList then setTag cfg pc .platform (some "MSG".toList)
    else none

/-- `set_language_str`: canonicalize to the config-stored spelling. -/
def setLanguageStr (cfg : PathSearcherConfig) (pc : PathComponents)
    (newL : Option (List Char)) : Option PathComponents :=
  match newL with
  | none => setTag cfg pc .language none
  | some s =>
    match cfg.languages.find? (fun lang => eqIC lang s) with
    | some canon => setTag cfg pc .language (some canon)
    | none =>
      if cfg.languages.any (fun lang => lang == s) then
        setTag cfg pc .language (some s)
      else none

/-- `set_arch_str`: canonicalize to `X64`. -/
def setArchStr (cfg : PathSearcherConfig) (pc : PathComponents)
    (newA : Option (List Char)) : Option PathComponents :=
  match newA with
  | none => setTag cfg pc .arch none
  | some s =>
    if eqIC s "X64".toList then setTag cfg pc .arch (some "X64".toList)
    else none

/-- One successful mutator call of claim C8. -/
inductive Mutation where
  | setPfx (p : Option (List Char))
  | setRaw (p : List Char)
  | setVerStr (v : List Char)
  | setVerU32 (n : Nat)
  | clearVer
  | setPlatform (p : Option (List Char))
  | setLang (l : Option (List Char))
  | setArch (a : Option (List Char))

def applyMutation (cfg : PathSearcherConfig) (pc : PathComponents) :
    Mutation → Option PathComponents
  | .setPfx p => setPrefixStr cfg pc p
  | .setRaw p => setRawPathStr cfg pc p
  | .setVerStr v => setVersionStr cfg pc v
  | .setVerU32 n => setVersionU32 cfg pc n
  | .clearVer => clearVersion cfg pc
  | .setPlatform p => setPlatformStr cfg pc p
  | .setLang l => setLanguageStr cfg pc l
  | .setArch a => setArchStr cfg pc a

/-! ## Claim C8: idempotence lemmas for the parser -/

theorem startsWithIC_nil (p : List Char) : startsWithIC p [] = true := by
  simp [startsWithIC]

theorem startsWithIC_empty_false {p : List Char} (hp : p ≠ []) :
    startsWithIC [] p = false := by
  unfold startsWithIC
  cases p with
  | nil => exact absurd rfl hp
  | cons ph pt => simp

theorem startsWithIC_short {s p : List Char} (h : s.length < p.length) :
    startsWithIC s p = false := by
  unfold startsWithIC
  rw [Bool.eq_false_iff]
  intro hcon
  have := congrArg List.length (beq_iff_eq.mp hcon)
  simp only [List.length_map, List.length_take] at this
  omega

theorem startsWithIC_head {c ph : Char} {t pt : List Char}
    (h : startsWithIC (c :: t) (ph :: pt) = true) :
    c.toLower = ph.toLower := by
  unfold startsWithIC at h
  rw [List.length_cons, List.take_succ_cons, List.map_cons, List.map_cons] at h
  have h2 := beq_iff_eq.mp h
  injection h2

theorem findIC_nil_pat (s : List Char) : findIC s [] = some 0 := by
  cases s with
  | nil => rfl
  | cons c t =>
    rw [findIC]
    rw [if_neg (by simp), if_pos (startsWithIC_nil _)]

theorem findIC_some_starts :
    ∀ (s p : List Char) (i : Nat), findIC s p = some i →
      startsWithIC (s.drop i) p = true
  | [], p, i => by
    intro h
    rw [findIC] at h
    split at h
    · cases h
      rename_i hp
      rw [List.isEmpty_iff] at hp
      subst hp
      exact startsWithIC_nil _
    · cases h
  | c :: t, p, i => by
    intro h
    rw [findIC] at h
    split at h
    · cases h
    · split at h
      · cases h
        rename_i hstart
        exact hstart
      · cases hf : findIC t p with
        | none => rw [hf] at h; cases h
        | some j =>
          rw [hf] at h
          cases h
          rw [List.drop_succ_cons]
          exact findIC_some_starts t p j hf

theorem findIC_none_starts :
    ∀ (s p : List Char), findIC s p = none →
      ∀ i, startsWithIC (s.drop i) p = false
  | [], p => by
    intro h i
    rw [findIC] at h
    split at h
    · cases h
    · rename_i hp
      have hpne : p ≠ [] := fun hnil => hp (by rw [hnil]; rfl)
      rw [List.drop_nil]
      exact startsWithIC_empty_false hpne
  | c :: t, p => by
    intro h i
    rw [findIC] at h
    split at h
    · rename_i hlong
      apply startsWithIC_short
      have : ((c :: t).drop i).length ≤ (c :: t).length := by
        rw [List.length_drop]
        omega
      omega
    · split at h
      · cases h
      · rename_i hnot
        cases hf : findIC t p with
        | some j => rw [hf] at h; cases h
        | none =>
          match i with
          | 0 =>
            rw [List.drop_zero]
            exact Bool.eq_false_iff.mpr hnot
          | i + 1 =>
            rw [List.drop_succ_cons]
            exact findIC_none_starts t p hf i

theorem findIC_none_of_all {s p : List Char}
    (h : ∀ i, startsWithIC (s.drop i) p = false) : findIC s p = none := by
  cases hf : findIC s p with
  | none => rfl
  | some i =>
    have := findIC_some_starts s p i hf
    rw [h i] at this
    cases this

theorem drainToPfx_some_split :
    ∀ (ps : List (List Char)) (s : List Char) (i plen : Nat),
      drainToPfx ps s = some (i, plen) →
      ∃ qs p ps', ps = qs ++ p :: ps' ∧ (∀ q ∈ qs, findIC s q = none) ∧
        findIC s p = some i ∧ plen = p.length
  | [], s, i, plen => by intro h; cases h
  | p :: ps, s, i, plen => by
    intro h
    rw [drainToPfx] at h
    cases hf : findIC s p with
    | some j =>
      rw [hf] at h
      cases h
      exact ⟨[], p, ps, rfl, by simp, hf, rfl⟩
    | none =>
      rw [hf] at h
      obtain ⟨qs, p2, ps', hps, hqs, hp2, hplen⟩ := drainToPfx_some_split ps s i plen h
      refine ⟨p :: qs, p2, ps', by rw [hps]; rfl, ?_, hp2, hplen⟩
      intro q hq
      rcases List.mem_cons.mp hq with rfl | hq2
      · exact hf
      · exact hqs q hq2

theorem drainToPfx_none :
    ∀ (ps : List (List Char)) (s : List Char), drainToPfx ps s = none →
      ∀ p ∈ ps, findIC s p = none
  | [], s => by intro _ p hp; cases hp
  | q :: ps, s => by
    intro h p hp
    rw [drainToPfx] at h
    cases hf : findIC s q with
    | some j => rw [hf] at h; cases h
    | none =>
      rw [hf] at h
      rcases List.mem_cons.mp hp with rfl | hp2
      · exact hf
      · exact drainToPfx_none ps s h p hp2

theorem find?_middle {f : List Char → Bool} :
    ∀ (qs : List (List Char)) (p : List Char) (ps' : List (List Char)),
      (∀ q ∈ qs, f q = false) → f p = true →
      (qs ++ p :: ps').find? f = some p
  | [], p, ps' => by
    intro _ hp
    rw [List.nil_append, List.find?_cons, hp]
  | q :: qs, p, ps' => by
    intro hqs hp
    rw [List.cons_append, List.find?_cons, hqs q (List.mem_cons_self q qs)]
    exact find?_middle qs p ps' (fun r hr => hqs r (List.mem_cons_of_mem q hr)) hp

theorem drainToPfx_middle {s : List Char} {j : Nat} :
    ∀ (qs : List (List Char)) (p : List Char) (ps' : List (List Char)),
      (∀ q ∈ qs, findIC s q = none) → findIC s p = some j →
      drainToPfx (qs ++ p :: ps') s = some (j, p.length)
  | [], p, ps' => by
    intro _ hp
    rw [List.nil_append, drainToPfx, hp]
  | q :: qs, p, ps' => by
    intro hqs hp
    rw [List.cons_append, drainToPfx, hqs q (List.mem_cons_self q qs)]
    exact drainToPfx_middle qs p ps' (fun r hr => hqs r (List.mem_cons_of_mem q hr)) hp

theorem stripLead_head :
    ∀ (s : List Char) (c : Char), (stripLead s).head? = some c →
      (c == '@' || c == '/') = false := by
  intro s
  induction s with
  | nil => intro c h; cases h
  | cons a t ih =>
    intro c h
    rw [stripLead, List.dropWhile_cons] at h
    split at h
    · exact ih c h
    · rename_i hpred
      cases h
      exact Bool.eq_false_iff.mpr hpred

theorem stripLead_eq_self {s : List Char}
    (h : ∀ c, s.head? = some c → (c == '@' || c == '/') = false) :
    stripLead s = s := by
  cases s with
  | nil => rfl
  | cons a t =>
    rw [stripLead, List.dropWhile_cons, h a rfl]
    simp

/-- The well-formedness of the config prefixes needed for re-parse
stability: no prefix starts (case-insensitively) with `@` or `/`.  The
shipped prefixes `natives/STM/` etc. satisfy it. -/
def pfxHeadsOk (cfg : PathSearcherConfig) : Bool :=
  cfg.prefixes.all (fun p =>
    match p.head? with
    | some c => !(c.toLower == '@') && !(c.toLower == '/')
    | none => true)

theorem pfxHeadsOk_spec {cfg : PathSearcherConfig} (h : pfxHeadsOk cfg = true) :
    ∀ p ∈ cfg.prefixes, ∀ c, p.head? = some c →
      c.toLower ≠ '@' ∧ c.toLower ≠ '/' := by
  intro p hp c hc
  rw [pfxHeadsOk, List.all_eq_true] at h
  have := h p hp
  rw [hc] at this
  simp only [Bool.and_eq_true, Bool.not_eq_true'] at this
  exact ⟨by simpa using this.1, by simpa using this.2⟩

theorem toLower_at : ('@' : Char).toLower = '@' := by decide

theorem toLower_slash : ('/' : Char).toLower = '/' := by decide

theorem pfxScan_head (cfg : PathSearcherConfig) (s1 : List Char)
    (hpfx : pfxHeadsOk cfg = true)
    (hh : ∀ c, s1.head? = some c → (c == '@' || c == '/') = false) :
    ∀ c, (pfxScan cfg s1).1.head? = some c → (c == '@' || c == '/') = false := by
  intro c hc
  unfold pfxScan at hc
  split at hc
  · cases hd : drainToPfx cfg.prefixes s1 with
    | none =>
      rw [hd] at hc
      exact hh c hc
    | some pr =>
      rw [hd] at hc
      obtain ⟨i, plen⟩ := pr
      simp only [] at hc
      obtain ⟨qs, p, ps', hps, hqs, hp, hplen⟩ := drainToPfx_some_split _ _ _ _ hd
      have hstart := findIC_some_starts s1 p i hp
      cases p with
      | nil =>
        have h0 : findIC s1 ([] : List Char) = some 0 := findIC_nil_pat s1
        rw [h0] at hp
        cases hp
        rw [List.drop_zero] at hc
        exact hh c hc
      | cons ph pt =>
        cases hdrop : s1.drop i with
        | nil =>
          rw [hdrop] at hc
          cases hc
        | cons c0 t0 =>
          rw [hdrop] at hc hstart
          cases hc
          have hlow := startsWithIC_head hstart
          have hmem : (ph :: pt) ∈ cfg.prefixes := by
            rw [hps]
            exact List.mem_append_right _ (List.mem_cons_self _ _)
          have hok := pfxHeadsOk_spec hpfx _ hmem ph rfl
          simp only [Bool.or_eq_false_iff, beq_eq_false_iff_ne]
          constructor
          · rintro rfl
            rw [toLower_at] at hlow
            exact hok.1 hlow.symm
          · rintro rfl
            rw [toLower_slash] at hlow
            exact hok.2 hlow.symm
  · exact hh c hc

theorem pfxScan_fix (cfg : PathSearcherConfig) (s1 : List Char) :
    pfxScan cfg (pfxScan cfg s1).1 = pfxScan cfg s1 := by
  by_cases hdet : detectPfx cfg.prefixes s1 = 0
  · cases hd : drainToPfx cfg.prefixes s1 with
    | none =>
      have h1 : pfxScan cfg s1 = (s1, 0) := by
        unfold pfxScan
        rw [if_pos hdet, hd]
      rw [h1]
      show pfxScan cfg s1 = (s1, 0)
      exact h1
    | some pr =>
      obtain ⟨i, plen⟩ := pr
      have h1 : pfxScan cfg s1 = (s1.drop i, plen) := by
        unfold pfxScan
        rw [if_pos hdet, hd]
      rw [h1]
      show pfxScan cfg (s1.drop i) = (s1.drop i, plen)
      obtain ⟨qs, p, ps', hps, hqs, hp, hplen⟩ := drainToPfx_some_split _ _ _ _ hd
      have hqs2 : ∀ q ∈ qs, startsWithIC (s1.drop i) q = false := by
        intro q hq
        exact findIC_none_starts s1 q (hqs q hq) i
      have hstart : startsWithIC (s1.drop i) p = true := findIC_some_starts s1 p i hp
      have hdet2 : detectPfx cfg.prefixes (s1.drop i) = p.length := by
        unfold detectPfx
        rw [hps, find?_middle qs p ps' hqs2 hstart]
      by_cases hpl : p.length = 0
      · have hpnil : p = [] := List.length_eq_zero.mp hpl
        subst hpnil
        have h0 : findIC s1 ([] : List Char) = some 0 := findIC_nil_pat s1
        rw [h0] at hp
        cases hp
        have hd2 : drainToPfx cfg.prefixes (s1.drop 0) = some (0, 0) := by
          rw [List.drop_zero, hps]
          exact drainToPfx_middle qs [] ps' hqs (findIC_nil_pat s1)

        unfold pfxScan
        rw [if_pos (by rw [hdet2]; rfl), hd2, hplen]
        simp
      · unfold pfxScan
        rw [if_neg (by rw [hdet2]; exact hpl), hdet2, hplen]
  · have h1 : pfxScan cfg s1 = (s1, detectPfx cfg.prefixes s1) := by
      unfold pfxScan
      rw [if_neg hdet]
    rw [h1]
    show pfxScan cfg s1 = (s1, detectPfx cfg.prefixes s1)
    exact h1

theorem pfxScan_subset (cfg : PathSearcherConfig) (s1 : List Char) :
    ∀ c ∈ (pfxScan cfg s1).1, c ∈ s1 := by
  intro c hc
  unfold pfxScan at hc
  split at hc
  · cases hd : drainToPfx cfg.prefixes s1 with
    | none =>
      rw [hd] at hc
      exact hc
    | some pr =>
      rw [hd] at hc
      exact List.drop_subset _ _ hc
  · exact hc

/-- `parse_raw_path_range` is a fixed point on its own output: re-parsing the
normalized string reproduces the string and both range endpoints. -/
theorem parse_idem (cfg : PathSearcherConfig) (s0 : List Char)
    (hpfx : pfxHeadsOk cfg = true) :
    parseRawPathRange cfg (parseRawPathRange cfg s0).1 = parseRawPathRange cfg s0 := by
  have hstrip : stripLead (pfxScan cfg (stripLead s0)).1 = (pfxScan cfg (stripLead s0)).1 :=
    stripLead_eq_self (pfxScan_head cfg (stripLead s0) hpfx (stripLead_head s0))
  have hfix : pfxScan cfg (pfxScan cfg (stripLead s0)).1 = pfxScan cfg (stripLead s0) :=
    pfxScan_fix cfg (stripLead s0)
  simp only [parseRawPathRange]
  rw [hstrip, hfix]

theorem parse_subset (cfg : PathSearcherConfig) (s0 : List Char) :
    ∀ c ∈ (parseRawPathRange cfg s0).1, c ∈ s0 := by
  intro c hc
  simp only [parseRawPathRange] at hc
  have h1 := pfxScan_subset cfg (stripLead s0) c hc
  exact (List.dropWhile_sublist _).subset h1

/-! ## Claim C8: tracking the absence of `\` through the mutators -/

/-- Config strings carry no backslash (true of the shipped prefixes and
languages; a parsed record never reintroduces `\` under this assumption). -/
def cfgClean (cfg : PathSearcherConfig) : Bool :=
  cfg.prefixes.all (fun p => !(decide ('\\' ∈ p))) &&
  cfg.languages.all (fun l => !(decide ('\\' ∈ l)))

theorem cfgClean_pfx {cfg : PathSearcherConfig} (h : cfgClean cfg = true) :
    ∀ p ∈ cfg.prefixes, '\\' ∉ p := by
  rw [cfgClean, Bool.and_eq_true, List.all_eq_true, List.all_eq_true] at h
  intro p hp
  have := h.1 p hp
  simpa using this

theorem cfgClean_lang {cfg : PathSearcherConfig} (h : cfgClean cfg = true) :
    ∀ l ∈ cfg.languages, '\\' ∉ l := by
  rw [cfgClean, Bool.and_eq_true, List.all_eq_true, List.all_eq_true] at h
  intro l hl
  have := h.2 l hl
  simpa using this

theorem replaceBackslash_no_bs (s : List Char) : '\\' ∉ replaceBackslash s := by
  unfold replaceBackslash
  intro h
  obtain ⟨c, _, heq⟩ := List.mem_map.mp h
  by_cases hc : (c == '\\') = true
  · rw [if_pos hc] at heq
    cases heq
  · rw [if_neg hc] at heq
    exact hc (by rw [heq]; decide)

theorem digits_no_bs {l : List Char} (h : l.all (·.isDigit) = true) : '\\' ∉ l := by
  intro hm
  rw [List.all_eq_true] at h
  have := h '\\' hm
  simp at this

theorem replaceRange_no_bs {s r : List Char} {a b : Nat}
    (hs : '\\' ∉ s) (hr : '\\' ∉ r) : '\\' ∉ replaceRange s a b r := by
  unfold replaceRange
  intro h
  rcases List.mem_append.mp h with h1 | h2
  · rcases List.mem_append.mp h1 with h11 | h12
    · exact hs (List.take_subset _ _ h11)
    · exact hr h12
  · exact hs (List.drop_subset _ _ h2)

theorem sliceRange_no_bs {s : List Char} {a b : Nat} (hs : '\\' ∉ s) :
    '\\' ∉ sliceRange s a b := by
  intro h
  exact hs (List.take_subset _ _ (List.drop_subset _ _ h))

theorem stripLead_no_bs {s : List Char} (hs : '\\' ∉ s) : '\\' ∉ stripLead s :=
  fun h => hs ((List.dropWhile_sublist _).subset h)

theorem tagSegsF_chars :
    ∀ (f : Nat) (l : List Char) (seg : List Char), seg ∈ tagSegsF f l →
      ∀ c ∈ seg, c ∈ l := by
  intro f
  induction f with
  | zero => intro l seg h; cases h
  | succ f ih =>
    intro l seg h c hc
    rw [tagSegsF.eq_def] at h
    match l with
    | [] => simp at h
    | ch :: rest =>
      simp only [] at h
      split at h
      · split at h
        · have := ih _ seg h c hc
          exact List.mem_cons_of_mem _ (List.drop_subset _ _ this)
        · rcases List.mem_cons.mp h with rfl | h2
          · exact List.mem_cons_of_mem _ ((List.takeWhile_sublist _).subset hc)
          · have := ih _ seg h2 c hc
            exact List.mem_cons_of_mem _ (List.drop_subset _ _ this)
      · cases h

theorem setTagLoop_mem (cfg : PathSearcherConfig) (kind : TagKind)
    (newV : Option (List Char)) :
    ∀ (tags : List (List Char)) (r : Bool) (t : List Char),
      t ∈ setTagLoop cfg kind newV tags r → t ∈ tags ∨ newV = some t := by
  intro tags
  induction tags with
  | nil =>
    intro r t h
    rw [setTagLoop.eq_def] at h
    simp only [] at h
    split at h
    · cases h
    · split at h
      · rcases List.mem_cons.mp h with rfl | h2
        · exact Or.inr rfl
        · cases h2
      · cases h
  | cons tg tgs ih =>
    intro r t h
    rw [setTagLoop.eq_def] at h
    simp only [] at h
    split at h
    · split at h
      · split at h
        · rcases ih _ t h with h2 | h2
          · exact Or.inl (List.mem_cons_of_mem _ h2)
          · exact Or.inr h2
        · rcases List.mem_cons.mp h with rfl | h2
          · exact Or.inr rfl
          · rcases ih _ t h2 with h3 | h3
            · exact Or.inl (List.mem_cons_of_mem _ h3)
            · exact Or.inr h3
      · rcases ih _ t h with h2 | h2
        · exact Or.inl (List.mem_cons_of_mem _ h2)
        · exact Or.inr h2
    · rcases List.mem_cons.mp h with rfl | h2
      · exact Or.inl (List.mem_cons_self _ _)
      · rcases ih _ t h2 with h3 | h3
        · exact Or.inl (List.mem_cons_of_mem _ h3)
        · exact Or.inr h3

theorem recompute_props (cfg : PathSearcherConfig) (s : List Char)
    (hpfx : pfxHeadsOk cfg = true) (hnb : '\\' ∉ s) :
    parseRawPathRange cfg (recompute cfg s).full
      = ((recompute cfg s).full, (recompute cfg s).rawStart, (recompute cfg s).rawEnd) ∧
    '\\' ∉ (recompute cfg s).full ∧
    (∀ c, (recompute cfg s).full.head? = some c → c ≠ '@' ∧ c ≠ '/') := by
  refine ⟨?_, ?_, ?_⟩
  · show parseRawPathRange cfg (parseRawPathRange cfg s).1 = _
    rw [parse_idem cfg s hpfx]
    rfl
  · show '\\' ∉ (parseRawPathRange cfg s).1
    intro h
    exact hnb (parse_subset cfg s _ h)
  · intro c hc
    have hb := pfxScan_head cfg (stripLead s) hpfx (stripLead_head s) c hc
    simp only [Bool.or_eq_false_iff, beq_eq_false_iff_ne] at hb
    exact hb

theorem setTag_success (cfg : PathSearcherConfig) (pc : PathComponents)
    (kind : TagKind) (newV : Option (List Char)) (pc' : PathComponents)
    (hpre : '\\' ∉ pc.full) (hnv : ∀ v, newV = some v → '\\' ∉ v)
    (h : setTag cfg pc kind newV = some pc') :
    ∃ s, pc' = recompute cfg s ∧ '\\' ∉ s := by
  unfold setTag at h
  cases hv : versionRange pc with
  | none => rw [hv] at h; cases h
  | some ab =>
    rw [hv] at h
    obtain ⟨a, b⟩ := ab
    simp only [] at h
    injection h with h2
    refine ⟨_, h2.symm, ?_⟩
    intro hmem
    rcases List.mem_append.mp hmem with h1 | hflat
    · rcases List.mem_append.mp h1 with htake | hrest
      · exact hpre (List.take_subset _ _ htake)
      · rcases List.mem_cons.mp hrest with hdot | hver
        · cases hdot
        · exact sliceRange_no_bs hpre hver
    · obtain ⟨t, ht, hct⟩ := List.mem_flatMap.mp hflat
      rcases List.mem_cons.mp hct with hdot2 | hint
      · cases hdot2
      · rcases setTagLoop_mem cfg kind newV _ _ t ht with htag | hnew
        · have hchar := tagSegsF_chars _ _ t htag '\\' hint
          exact hpre (List.drop_subset _ _ hchar)
        · exact hnv t hnew hint

theorem applyMutation_success (cfg : PathSearcherConfig) (pc : PathComponents)
    (mu : Mutation) (pc' : PathComponents)
    (hclean : cfgClean cfg = true) (hpre : '\\' ∉ pc.full)
    (happ : applyMutation cfg pc mu = some pc') :
    ∃ s, pc' = recompute cfg s ∧ '\\' ∉ s := by
  cases mu with
  | setPfx p =>
    simp only [applyMutation] at happ
    unfold setPrefixStr at happ
    cases p with
    | none =>
      simp only [] at happ
      injection happ with h
      exact ⟨_, h.symm, replaceRange_no_bs hpre (by simp)⟩
    | some q =>
      simp only [] at happ
      split at happ
      · cases happ
      · rename_i canon hfind
        injection happ with h
        have hcanon : canon ∈ cfg.prefixes := List.mem_of_find?_eq_some hfind
        exact ⟨_, h.symm, replaceRange_no_bs hpre (cfgClean_pfx hclean canon hcanon)⟩
  | setRaw p =>
    simp only [applyMutation] at happ
    unfold setRawPathStr at happ
    simp only [] at happ
    split at happ
    · cases happ
    · injection happ with h
      exact ⟨_, h.symm,
        replaceRange_no_bs hpre (stripLead_no_bs (replaceBackslash_no_bs p))⟩
  | setVerStr v =>
    simp only [applyMutation] at happ
    unfold setVersionStr at happ
    split at happ
    · cases happ
    · rename_i hguard
      have hg : (v.isEmpty || !(v.all (·.isDigit))) = false := by
        rw [Bool.eq_false_iff]
        exact hguard
      rw [Bool.or_eq_false_iff] at hg
      have hdig : v.all (·.isDigit) = true := by simpa using hg.2
      split at happ
      · injection happ with h
        exact ⟨_, h.symm, replaceRange_no_bs hpre (digits_no_bs hdig)⟩
      · injection happ with h
        refine ⟨_, h.symm, ?_⟩
        intro hmem
        rcases List.mem_append.mp hmem with h1 | h2
        · exact hpre h1
        · rcases List.mem_cons.mp h2 with hdot | h3
          · cases hdot
          · exact digits_no_bs hdig h3
  | setVerU32 n =>
    simp only [applyMutation] at happ
    unfold setVersionU32 setVersionStr at happ
    split at happ
    · cases happ
    · rename_i hguard
      have hg : ((Nat.repr n).data.isEmpty || !((Nat.repr n).data.all (·.isDigit))) = false := by
        rw [Bool.eq_false_iff]
        exact hguard
      rw [Bool.or_eq_false_iff] at hg
      have hdig : (Nat.repr n).data.all (·.isDigit) = true := by simpa using hg.2
      split at happ
      · injection happ with h
        exact ⟨_, h.symm, replaceRange_no_bs hpre (digits_no_bs hdig)⟩
      · injection happ with h
        refine ⟨_, h.symm, ?_⟩
        intro hmem
        rcases List.mem_append.mp hmem with h1 | h2
        · exact hpre h1
        · rcases List.mem_cons.mp h2 with hdot | h3
          · cases hdot
          · exact digits_no_bs hdig h3
  | clearVer =>
    simp only [applyMutation] at happ
    unfold clearVersion at happ
    split at happ
    · cases happ
    · injection happ with h
      exact ⟨_, h.symm, fun hmem => hpre (List.take_subset _ _ hmem)⟩
  | setPlatform p =>
    simp only [applyMutation] at happ
    unfold setPlatformStr at happ
    cases p with
    | none => exact setTag_success cfg pc _ _ pc' hpre (by intro v hv; cases hv) happ
    | some s =>
      simp only [] at happ
      split at happ
      · exact setTag_success cfg pc _ _ pc' hpre
          (by intro v hv; cases hv; decide) happ
      · split at happ
        · exact setTag_success cfg pc _ _ pc' hpre
            (by intro v hv; cases hv; decide) happ
        · split at happ
          · exact setTag_success cfg pc _ _ pc' hpre
              (by intro v hv; cases hv; decide) happ
          · cases happ
  | setLang l =>
    simp only [applyMutation] at happ
    unfold setLanguageStr at happ
    cases l with
    | none => exact setTag_success cfg pc _ _ pc' hpre (by intro v hv; cases hv) happ
    | some s =>
      simp only [] at happ
      split at happ
      · rename_i canon hfind
        exact setTag_success cfg pc _ _ pc' hpre
          (by
            intro v hv
            cases hv
            exact cfgClean_lang hclean _ (List.mem_of_find?_eq_some hfind)) happ
      · split at happ
        · rename_i hfindnone hany
          have hsmem : s ∈ cfg.languages := by
            rw [List.any_eq_true] at hany
            obtain ⟨lang, hlang, hbeq⟩ := hany
            rw [beq_iff_eq.mp hbeq] at hlang
            exact hlang
          exact setTag_success cfg pc _ _ pc' hpre
            (by
              intro v hv
              cases hv
              exact cfgClean_lang hclean _ hsmem) happ
        · cases happ
  | setArch a =>
    simp only [applyMutation] at happ
    unfold setArchStr at happ
    cases a with
    | none => exact setTag_success cfg pc _ _ pc' hpre (by intro v hv; cases hv) happ
    | some s =>
      simp only [] at happ
      split at happ
      · exact setTag_success cfg pc _ _ pc' hpre
          (by intro v hv; cases hv; decide) happ
      · cases happ

/-- Claim C8: after every successful mutator call on a `PathComponents`
record — given a config whose prefixes do not begin with `@`/`/` and whose
prefixes and languages carry no `\`, and a pre-state with no `\` — re-parsing
the resulting `normalized_full` yields identical component ranges (the record
is a fixed point of `parse_raw_path_range`), and `normalized_full` contains
no `\` and does not start with `@` or `/`. -/
theorem C8_mutators (cfg : PathSearcherConfig) (pc pc' : PathComponents)
    (mu : Mutation)
    (hpfx : pfxHeadsOk cfg = true) (hclean : cfgClean cfg = true)
    (hpre : '\\' ∉ pc.full)
    (happ : applyMutation cfg pc mu = some pc') :
    parseRawPathRange cfg pc'.full = (pc'.full, pc'.rawStart, pc'.rawEnd) ∧
    '\\' ∉ pc'.full ∧
    (∀ c, pc'.full.head? = some c → c ≠ '@' ∧ c ≠ '/') := by
  obtain ⟨s, rfl, hnb⟩ := applyMutation_success cfg pc mu pc' hclean hpre happ
  exact recompute_props cfg s hpfx hnb

def cfgW : PathSearcherConfig :=
  ⟨["Ja".toList, "En".toList], ["natives/STM/".toList], []⟩

def pcW : PathComponents := recompute cfgW "natives/STM/x/y.user.3".toList

def pcW2 : PathComponents := recompute cfgW "natives/STM/x/y.user.3.X64".toList

/-- Witness for `C8_mutators`: setting the arch tag `x64` on the parsed
`natives/STM/x/y.user.3` succeeds, and the invariants hold for the result. -/
theorem C8_mutators_witness :
    parseRawPathRange cfgW pcW2.full = (pcW2.full, pcW2.rawStart, pcW2.rawEnd) ∧
    '\\' ∉ pcW2.full ∧
    (∀ c, pcW2.full.head? = some c → c ≠ '@' ∧ c ≠ '/') :=
  C8_mutators cfgW pcW pcW2 (.setArch (some "x64".toList))
    (by decide) (by decide) (by decide) (by decide)
